import Mathlib

/-!
Verification of the tulip policy manager's in-memory core: the sorted
`Policies` rule set (binary-search based `Insert` / `Remove` / `Find` /
`Filter`), the RBAC-with-domain matcher, and the write-path validation
(`policyID` / `policyArgs`).

The Go source is embedded shallowly:

* rules are `List String`, a rule set is `List (List String)`;
* Go's byte-wise string comparison is modelled character-wise on
  `String.data` (on UTF-8 text byte-wise and code-point-wise
  lexicographic order coincide);
* every indexing operation of the source that Go would bounds-check at
  runtime (and panic on) is guarded: the embedded functions return
  `Option`, where `none` models a panic;
* `sort.Search` is embedded as the exact binary-search loop of the Go
  standard library, supplied with enough fuel (`hi - lo` iterations always
  suffice, since the bracket shrinks every iteration);
* the external checksum function (`meow.Checksum`) is a function
  parameter `checksum : String → Nat`; `fmt.Sprintf "%x"` is lowercase
  hex rendering of that number.
-/

namespace Tulip

/-- Go compares strings byte-wise; on UTF-8 data this is the same as
code-point lexicographic order, modelled here on the character lists. -/
def charsLt : List Char → List Char → Bool
  | [], [] => false
  | [], _ :: _ => true
  | _ :: _, [] => false
  | a :: as, b :: bs => if a < b then true else if b < a then false else charsLt as bs

/-- Go's `a < b` on strings. -/
def goStrLt (a b : String) : Bool := charsLt a.data b.data

/-- A policy rule: an ordered tuple of strings (`[]string` in Go). -/
abbrev Rule := List String

/-- `Policies` represents a list of sortable policies (`[][]string`). -/
abbrev Policies := List Rule

/-- `Policies.Less(i, j)` from the source, on the two rules themselves: walk
the positions of the first rule; `<` decides true, `>` decides false, all
equal decides false.  Indexing the second rule beyond its length is a Go
panic, modelled as `none`. -/
def lessAux : List String → List String → Option Bool
  | [], _ => some false
  | _ :: _, [] => none
  | a :: as, b :: bs =>
    if goStrLt a b then some true
    else if goStrLt b a then some false
    else lessAux as bs

/-- Total companion of `Policies.Less` used by the model of `sort.Sort`
(both branches of the out-of-range case are irrelevant for the equal-width
rules the source sorts). -/
def lessB : List String → List String → Bool
  | [], _ => false
  | _ :: _, [] => false
  | a :: as, b :: bs =>
    if goStrLt a b then true
    else if goStrLt b a then false
    else lessB as bs

/-- The predicate passed to `sort.Search` inside `Policies.search`: walk the
positions of `rule` against the stored rule `x`; `x[k] > rule[k]` decides
true, `x[k] < rule[k]` decides false, `rule` exhausted decides true.
Indexing `x` beyond its length is a Go panic, modelled as `none`. -/
def searchPredAux : List String → List String → Option Bool
  | [], _ => some true
  | _ :: _, [] => none
  | r :: rs, x :: xs =>
    if goStrLt r x then some true
    else if goStrLt x r then some false
    else searchPredAux rs xs

/-- The binary-search loop of Go's `sort.Search`:
`i, j := 0, n; for i < j { h := (i+j)/2; if !f(h) { i = h+1 } else { j = h } }; return i`.
The loop is embedded with fuel; `hi - lo` iterations always suffice because
the bracket `j - i` strictly shrinks.  A panic inside the predicate
(`none`) aborts the search. -/
def sortSearchGo (f : Nat → Option Bool) : Nat → Nat → Nat → Option Nat
  | 0, i, _ => some i
  | fuel + 1, i, j =>
    if i < j then
      match f ((i + j) / 2) with
      | none => none
      | some true => sortSearchGo f fuel i ((i + j) / 2)
      | some false => sortSearchGo f fuel ((i + j) / 2 + 1) j
    else some i

/-- `sort.Search n f`. -/
def sortSearch (n : Nat) (f : Nat → Option Bool) : Option Nat :=
  sortSearchGo f n 0 n

/-- `Policies.search`: insert index for `rule`, located by `sort.Search`
over the whole list with the prefix-comparison predicate. -/
def search (p : Policies) (rule : Rule) : Option Nat :=
  sortSearch p.length fun i =>
    match p[i]? with
    | some x => searchPredAux rule x
    | none => none

/-- `stringSliceEqual`: length check plus position-wise equality (the Go
`nil` / empty-slice distinction does not exist for Lean lists). -/
def stringSliceEqual (a b : List String) : Bool := a == b

/-- `Policies.Insert`: locate the insert index; if the rule at that index
equals `rule`, do nothing; otherwise splice a copy of `rule` in at the
index (appending when the index is past the end). -/
def Insert (p : Policies) (rule : Rule) : Option Policies :=
  match search p rule with
  | none => none
  | some i =>
    if h : i < p.length then
      if stringSliceEqual p[i] rule then some p
      else some (p.take i ++ rule :: p.drop i)
    else some (p ++ [rule])

/-- `Policies.Remove`: locate the index; if the rule there equals `rule`,
excise it; otherwise no-op. -/
def Remove (p : Policies) (rule : Rule) : Option Policies :=
  match search p rule with
  | none => none
  | some i =>
    if h : i < p.length then
      if stringSliceEqual p[i] rule then some (p.take i ++ p.drop (i + 1))
      else some p
    else some p

/-- `Policies.Find`: locate the index; if the stored rule there agrees with
`rule` on the first `len rule` positions return it, else return nothing
(inner `none`).  Slicing the stored rule past its length is a Go panic,
modelled as the outer `none`. -/
def Find (p : Policies) (rule : Rule) : Option (Option Rule) :=
  match search p rule with
  | none => none
  | some i =>
    if h : i < p.length then
      if rule.length ≤ p[i].length then
        if stringSliceEqual (p[i].take rule.length) rule then some (some p[i])
        else some none
      else none
    else some none

/-- Guarded double indexing `p[i][j]` used by the `Filter` binary searches. -/
def idx2 (q : Policies) (i j : Nat) : Option String :=
  match q[i]? with
  | some x => x[j]?
  | none => none

/-- One narrowing step of `Policies.Filter` at position `j` with value `s`:
two binary searches isolate the half-open run `p[i][j] = s` of the current
slice (`p = p[start:]` then `p = p[:end]`). -/
def narrowStep (q : Policies) (j : Nat) (s : String) : Option Policies :=
  match sortSearch q.length (fun i => (idx2 q i j).map fun v => !goStrLt v s) with
  | none => none
  | some start =>
    match sortSearch (q.drop start).length
        (fun i => (idx2 (q.drop start) i j).map fun v => goStrLt s v) with
    | none => none
    | some e => some ((q.drop start).take e)

/-- The narrowing loop of `Policies.Filter` over the pattern positions,
stopping at the first empty (wildcard) position.  The returned index is the
position after the loop variable's final value, i.e. where the linear scan
starts. -/
def narrowLoop : Policies → List String → Nat → Option (Policies × Nat)
  | q, [], j => some (q, j + 1)
  | q, [s], j =>
    if s = "" then some (q, j + 1)
    else
      match narrowStep q j s with
      | none => none
      | some q1 => some (q1, j + 1)
  | q, s :: s1 :: rest, j =>
    if s = "" then some (q, j + 1)
    else
      match narrowStep q j s with
      | none => none
      | some q1 => narrowLoop q1 (s1 :: rest) (j + 1)

/-- The per-rule linear scan of `Policies.Filter` from position `k`: a rule
survives while each non-wildcard pattern position agrees; indexing the rule
out of range is a Go panic (`none`).  This is the per-rule view of the
source's `excluded`-array loop, which tests a rule at increasing positions
until it is excluded. -/
def bruteCheck (x : Rule) : Nat → List String → Option Bool
  | _, [] => some true
  | k, s :: rest =>
    if s = "" then bruteCheck x (k + 1) rest
    else
      match x[k]? with
      | none => none
      | some v => if v = s then bruteCheck x (k + 1) rest else some false

/-- Collect the rules of the narrowed slice that survive the linear scan. -/
def bruteFilter (k : Nat) (pat : List String) : Policies → Option Policies
  | [] => some []
  | x :: xs =>
    match bruteCheck x k pat with
    | none => none
    | some b =>
      match bruteFilter k pat xs with
      | none => none
      | some r => some (if b then x :: r else r)

/-- `Policies.Filter`: narrow by binary search until the first wildcard,
return nothing on an empty slice, then linear-scan the remaining pattern
positions. -/
def Filter (p : Policies) (rule : List String) : Option Policies :=
  match narrowLoop p rule 0 with
  | none => none
  | some (q, k) =>
    if q.length = 0 then some []
    else bruteFilter k (rule.drop k) q

/-- Ordered insertion with respect to `Policies.Less`. -/
def insertLess (x : Rule) : Policies → Policies
  | [] => [x]
  | y :: ys => if lessB y x then y :: insertLess x ys else x :: y :: ys

/-- Model of `sort.Sort(p)` with the `Policies.Less` order: a comparison
sort.  The source's stdlib quicksort agrees with any comparison sort up to
the order of `Less`-equal elements, and `Less`-equal rules of equal width
are identical, so the result is the same list. -/
def sortPolicies : Policies → Policies
  | [] => []
  | x :: xs => insertLess x (sortPolicies xs)

/-- The cache state of a `Manager`: base policies `p` and grouping policies
`g` (the connection, mutex, ticker and logger fields carry no enforcement
semantics). -/
structure Manager where
  p : Policies
  g : Policies

/-- `Manager.FindExact`: find the policy that matches the rule exactly
(prefix-exactly, via `Policies.Find`). -/
def Manager.FindExact (m : Manager) (rule : List String) : Option (Option Rule) :=
  Find m.p rule

/-- `Manager.Filter`: filter base policies. -/
def Manager.Filter (m : Manager) (rule : List String) : Option Policies :=
  Tulip.Filter m.p rule

/-- `Manager.FilterGroups`: filter grouping policies. -/
def Manager.FilterGroups (m : Manager) (rule : List String) : Option Policies :=
  Tulip.Filter m.g rule

/-- The loop of `Manager.FilterWithGroups`: for each grouping rule `g`,
filter the base policies with the length-`pvi + 1` slice whose only
non-zero position `pvi` holds `g[gvi]`, appending the results.  (The source
reuses one slice buffer; it rewrites the same cell each iteration, which is
equivalent to a fresh slice.) -/
def filterWithGroupsLoop (P : Policies) (pvi gvi : Nat) : Policies → Policies → Option Policies
  | result, [] => some result
  | result, g :: gs =>
    match g[gvi]? with
    | none => none
    | some v =>
      match Tulip.Filter P (List.replicate pvi "" ++ [v]) with
      | none => none
      | some f => filterWithGroupsLoop P pvi gvi (result ++ f) gs

/-- `Manager.FilterWithGroups`. -/
def Manager.FilterWithGroups (m : Manager) (pvi : Nat) (groups : Policies) (gvi : Nat) :
    Option Policies :=
  if groups.length = 0 then some []
  else filterWithGroupsLoop m.p pvi gvi [] groups

/-- The `RBACWithDomain` matcher: exact base-policy hit, else expand the
subject through grouping rules `(sub, _, dom)`, collect base policies whose
position 0 is a matched role, and narrow by `(_, dom, obj, act)`.
Destructuring a request of fewer than four positions is a Go panic. -/
def RBACWithDomain (m : Manager) (request : List String) : Option Bool :=
  match request[0]?, request[1]?, request[2]?, request[3]? with
  | some sub, some dom, some obj, some act =>
    match m.FindExact [sub, dom, obj, act] with
    | none => none
    | some (some _) => some true
    | some none =>
      match m.FilterGroups [sub, "", dom] with
      | none => none
      | some groups =>
        match m.FilterWithGroups 0 groups 1 with
        | none => none
        | some policies =>
          if policies.length = 0 then some false
          else
            match Tulip.Filter policies ["", dom, obj, act] with
            | none => none
            | some res => some (decide (0 < res.length))
  | _, _, _, _ => none

/-- `Manager.Enforce` evaluates the configured matcher on the manager;
here the matcher is instantiated with the reference `RBACWithDomain`. -/
def Enforce (m : Manager) (request : List String) : Option Bool :=
  RBACWithDomain m request

/-- A `pgtype.Text` cell of the insert statement: present text or NULL. -/
inductive PGText where
  | present (s : String)
  | null
deriving DecidableEq

/-- `policyID`: truncate the rule at its first empty string, join `ptype`
with that prefix by `","`, checksum, and render as lowercase hex.  The
external `meow.Checksum` is modelled as the parameter `checksum`;
`Nat.toDigits 16` is the lowercase hex rendering of `%x`. -/
def policyID (checksum : String → Nat) (ptype : String) (rule : List String) : String :=
  String.mk (Nat.toDigits 16
    (checksum (String.intercalate "," (ptype :: rule.take (rule.findIdx fun s => s == "")))))

/-- The `for i := 0; i < 6; i++` loop of `policyArgs` building the six value
columns, with `n` iterations left at position `i`: a present position that
is the empty string panics (`none`), a position past the rule's length is
NULL. -/
def policyColsLoop (rule : List String) : Nat → Nat → Option (List PGText)
  | _, 0 => some []
  | i, n + 1 =>
    if i < rule.length then
      if rule.getD i "" = "" then none
      else
        match policyColsLoop rule (i + 1) n with
        | none => none
        | some r => some (PGText.present (rule.getD i "") :: r)
    else
      match policyColsLoop rule (i + 1) n with
      | none => none
      | some r => some (PGText.null :: r)

/-- `policyArgs`: build the eight statement arguments `id, p_type, v0..v5`.
A present rule position that is the empty string panics (`none`); positions
past the rule's length become NULL; rule positions past the sixth are
ignored. -/
def policyArgs (checksum : String → Nat) (ptype : String) (rule : List String) :
    Option (List PGText) :=
  match policyColsLoop rule 0 6 with
  | none => none
  | some cols => some (PGText.present (policyID checksum ptype rule) :: PGText.present ptype :: cols)

/-- `Manager.AddPolicy` evaluates `policyArgs` on the supplied rule and
issues the resulting arguments to the storage insert (the database call
itself is external I/O); a `policyArgs` panic aborts the write. -/
def AddPolicy (checksum : String → Nat) (ptype : String) (rule : List String) :
    Option (List PGText) :=
  policyArgs checksum ptype rule

/-- Transcribed from the specification: a rule matches a pattern when every
pattern position is either the empty string (wildcard) or equal to the
rule's value at that position; positions beyond the pattern are
unconstrained. -/
def matchesPattern : List String → List String → Bool
  | [], _ => true
  | _ :: _, [] => false
  | s :: ps, v :: vs => (s == "" || v == s) && matchesPattern ps vs

/-- Transcribed from the specification of `FilterWithGroups`: for each
`g ∈ groups` in order, filter the base policies with the pattern of length
`pvi + 1` whose positions before `pvi` are wildcards and whose position
`pvi` is `g[gvi]`; concatenate the results in group order. -/
def specFWGList (P : Policies) (pvi gvi : Nat) : Policies → Option Policies
  | [] => some []
  | g :: gs =>
    match g[gvi]? with
    | none => none
    | some v =>
      match Tulip.Filter P (List.replicate pvi "" ++ [v]) with
      | none => none
      | some f =>
        match specFWGList P pvi gvi gs with
        | none => none
        | some r => some (f ++ r)

/-- The specification's reading of `FilterWithGroups`, as a function of the
same arguments. -/
def specFilterWithGroups (P : Policies) (pvi : Nat) (groups : Policies) (gvi : Nat) :
    Option Policies :=
  specFWGList P pvi gvi groups

/-- Lexicographic `≤` on rules by position-wise Go string comparison (on
equal-width rules this is the reflexive closure of `Policies.Less`). -/
def lexLeB : List String → List String → Bool
  | [], _ => true
  | _ :: _, [] => false
  | a :: as, b :: bs =>
    if goStrLt a b then true
    else if goStrLt b a then false
    else lexLeB as bs

/-- Meaning of the `search` predicate when the stored rule is long enough:
`rule ≤ x` compared over the positions of `rule` (value at the guarded
out-of-range case is arbitrary). -/
def prefLe : List String → List String → Bool
  | [], _ => true
  | _ :: _, [] => true
  | r :: rs, x :: xs =>
    if goStrLt r x then true
    else if goStrLt x r then false
    else prefLe rs xs

/-- A rule set sorted by `lexLeB` (the invariant maintained by the cache). -/
abbrev SortedLe (p : Policies) : Prop :=
  List.Pairwise (fun a b => lexLeB a b = true) p

/-- A rule set strictly sorted: sorted and duplicate-free. -/
abbrev SortedLt (p : Policies) : Prop :=
  List.Pairwise (fun a b => lexLeB a b = true ∧ a ≠ b) p

/-- All rules of the set have width `w`. -/
abbrev Widths (w : Nat) (p : Policies) : Prop :=
  ∀ x ∈ p, x.length = w

/-- A mutation of the rule set, for invariant statements. -/
inductive Op where
  | insert (rule : Rule)
  | remove (rule : Rule)

/-- The rule carried by a mutation. -/
def Op.rule : Op → Rule
  | .insert r => r
  | .remove r => r

/-- Apply one mutation. -/
def applyOp (p : Policies) : Op → Option Policies
  | .insert r => Insert p r
  | .remove r => Remove p r

/-- Apply a sequence of mutations, aborting on a panic. -/
def applyOps : Policies → List Op → Option Policies
  | p, [] => some p
  | p, op :: ops =>
    match applyOp p op with
    | none => none
    | some q => applyOps q ops

/-- Strip the maximal run of trailing empty strings from a rule. -/
def removeTrailingEmpties : List String → List String
  | [] => []
  | a :: r =>
    match removeTrailingEmpties r with
    | [] => if a = "" then [] else [a]
    | b :: r2 => a :: b :: r2

/-- The decision claimed for `RBACWithDomain`, with the empty string acting
as a wildcard in every `Filter` comparison (against `sub` and `dom` when
matching grouping rules, against `g[1]` when matching base-policy subjects,
and against `dom`, `obj`, `act` in the final narrowing). -/
def rbacSpec (P G : Policies) (sub dom obj act : String) : Bool :=
  (P.any fun p => p.take 4 == [sub, dom, obj, act]) ||
    (G.any fun g =>
      matchesPattern [sub, "", dom] g &&
        (P.any fun p =>
          matchesPattern [g.getD 1 ""] p && matchesPattern ["", dom, obj, act] p))

/-! ### Order lemmas for the Go string comparison -/

theorem charsLt_irrefl : ∀ a : List Char, charsLt a a = false
  | [] => rfl
  | c :: cs => by simp [charsLt, charsLt_irrefl cs]

theorem charsLt_eq_of_not : ∀ {a b : List Char},
    charsLt a b = false → charsLt b a = false → a = b
  | [], [], _, _ => rfl
  | [], _ :: _, h, _ => by simp [charsLt] at h
  | _ :: _, [], _, h => by simp [charsLt] at h
  | x :: xs, y :: ys, h1, h2 => by
    rcases lt_trichotomy x y with hxy | hxy | hxy
    · simp [charsLt, hxy] at h1
    · subst hxy
      simp only [charsLt, lt_irrefl, if_false, if_neg] at h1 h2
      rw [charsLt_eq_of_not h1 h2]
    · simp [charsLt, hxy] at h2

theorem charsLt_asymm : ∀ {a b : List Char},
    charsLt a b = true → charsLt b a = false
  | [], _ :: _, _ => rfl
  | x :: xs, y :: ys, h => by
    rcases lt_trichotomy x y with hxy | hxy | hxy
    · simp [charsLt, hxy, lt_asymm hxy]
    · subst hxy
      simp only [charsLt, lt_irrefl, if_false, if_neg] at h ⊢
      exact charsLt_asymm h
    · simp [charsLt, hxy, lt_asymm hxy] at h

theorem charsLt_trans : ∀ {a b c : List Char},
    charsLt a b = true → charsLt b c = true → charsLt a c = true
  | [], _ :: _, _ :: _, _, _ => rfl
  | [], [], _, h, _ => by simp [charsLt] at h
  | [], _ :: _, [], _, h => by simp [charsLt] at h
  | _ :: _, [], _, h, _ => by simp [charsLt] at h
  | _ :: _, _ :: _, [], _, h => by simp [charsLt] at h
  | x :: xs, y :: ys, z :: zs, h1, h2 => by
    rcases lt_trichotomy x y with hxy | hxy | hxy
    · rcases lt_trichotomy y z with hyz | hyz | hyz
      · simp [charsLt, lt_trans hxy hyz]
      · subst hyz; simp [charsLt, hxy]
      · simp [charsLt, hyz, lt_asymm hyz] at h2
    · subst hxy
      rcases lt_trichotomy x z with hxz | hxz | hxz
      · simp [charsLt, hxz]
      · subst hxz
        simp only [charsLt, lt_irrefl, if_false, if_neg] at h1 h2 ⊢
        exact charsLt_trans h1 h2
      · simp [charsLt, hxz, lt_asymm hxz] at h2
    · simp [charsLt, hxy, lt_asymm hxy] at h1

theorem goStrLt_irrefl (a : String) : goStrLt a a = false :=
  charsLt_irrefl a.data

theorem goStrLt_eq_of_not {a b : String} (h1 : goStrLt a b = false)
    (h2 : goStrLt b a = false) : a = b :=
  String.ext (charsLt_eq_of_not h1 h2)

theorem goStrLt_asymm {a b : String} (h : goStrLt a b = true) : goStrLt b a = false :=
  charsLt_asymm h

theorem goStrLt_trans {a b c : String} (h1 : goStrLt a b = true)
    (h2 : goStrLt b c = true) : goStrLt a c = true :=
  charsLt_trans h1 h2

theorem goStrLt_cases (a b : String) :
    goStrLt a b = true ∨ a = b ∨ goStrLt b a = true := by
  cases h1 : goStrLt a b with
  | true => exact Or.inl rfl
  | false =>
    cases h2 : goStrLt b a with
    | true => exact Or.inr (Or.inr rfl)
    | false => exact Or.inr (Or.inl (goStrLt_eq_of_not h1 h2))

/-! ### Order lemmas for the rule order `lexLeB` -/

theorem lexLeB_refl : ∀ a : List String, lexLeB a a = true
  | [] => rfl
  | s :: ss => by simp [lexLeB, goStrLt_irrefl, lexLeB_refl ss]

theorem lexLeB_trans : ∀ {a b c : List String},
    lexLeB a b = true → lexLeB b c = true → lexLeB a c = true
  | [], _, _, _, _ => rfl
  | _ :: _, [], _, h, _ => by simp [lexLeB] at h
  | _ :: _, _ :: _, [], _, h => by simp [lexLeB] at h
  | x :: xs, y :: ys, z :: zs, h1, h2 => by
    rcases goStrLt_cases x y with hxy | hxy | hxy
    · rcases goStrLt_cases y z with hyz | hyz | hyz
      · simp [lexLeB, goStrLt_trans hxy hyz]
      · subst hyz; simp [lexLeB, hxy]
      · simp [lexLeB, hyz, goStrLt_asymm hyz] at h2
    · subst hxy
      rcases goStrLt_cases x z with hxz | hxz | hxz
      · simp [lexLeB, hxz]
      · subst hxz
        simp only [lexLeB, goStrLt_irrefl, if_false] at h1 h2 ⊢
        exact lexLeB_trans h1 h2
      · simp [lexLeB, hxz, goStrLt_asymm hxz] at h2
    · simp [lexLeB, hxy, goStrLt_asymm hxy] at h1

theorem lexLeB_total (a b : List String) : lexLeB a b = true ∨ lexLeB b a = true := by
  induction a generalizing b with
  | nil => exact Or.inl rfl
  | cons x xs ih =>
    cases b with
    | nil => exact Or.inr rfl
    | cons y ys =>
      rcases goStrLt_cases x y with hxy | hxy | hxy
      · exact Or.inl (by simp [lexLeB, hxy])
      · subst hxy
        rcases ih ys with h | h
        · exact Or.inl (by simp [lexLeB, goStrLt_irrefl, h])
        · exact Or.inr (by simp [lexLeB, goStrLt_irrefl, h])
      · exact Or.inr (by simp [lexLeB, hxy])

theorem lexLeB_antisymm : ∀ {a b : List String},
    lexLeB a b = true → lexLeB b a = true → a = b
  | [], [], _, _ => rfl
  | [], _ :: _, _, h => by simp [lexLeB] at h
  | _ :: _, [], h, _ => by simp [lexLeB] at h
  | x :: xs, y :: ys, h1, h2 => by
    rcases goStrLt_cases x y with hxy | hxy | hxy
    · simp [lexLeB, hxy, goStrLt_asymm hxy] at h2
    · subst hxy
      simp only [lexLeB, goStrLt_irrefl, if_false] at h1 h2
      rw [lexLeB_antisymm h1 h2]
    · simp [lexLeB, hxy, goStrLt_asymm hxy] at h1

/-! ### The search predicate and prefix order -/

theorem searchPredAux_eq : ∀ {rule x : List String}, rule.length ≤ x.length →
    searchPredAux rule x = some (prefLe rule x)
  | [], _, _ => rfl
  | _ :: _, [], h => by simp at h
  | _ :: rs, _ :: _, h => by
    simp only [searchPredAux, prefLe]
    split_ifs
    · rfl
    · rfl
    · exact searchPredAux_eq (by simpa using h)

theorem prefLe_eq_take : ∀ {rule x : List String}, rule.length ≤ x.length →
    prefLe rule x = lexLeB rule (x.take rule.length)
  | [], _, _ => rfl
  | _ :: _, [], h => by simp at h
  | _ :: rs, _ :: _, h => by
    simp only [prefLe, List.length_cons, List.take_succ_cons, lexLeB]
    split_ifs
    · rfl
    · rfl
    · exact prefLe_eq_take (by simpa using h)

theorem lexLeB_take : ∀ {a b : List String} (k : Nat), lexLeB a b = true →
    lexLeB (a.take k) (b.take k) = true
  | [], _, k, _ => by simp [lexLeB]
  | _ :: _, [], _, h => by simp [lexLeB] at h
  | _ :: _, _ :: _, 0, _ => rfl
  | x :: xs, y :: ys, k + 1, h => by
    simp only [List.take_succ_cons, lexLeB] at h ⊢
    split_ifs at h ⊢
    · rfl
    · exact lexLeB_take k h

theorem lexLeB_getD_mono : ∀ {a b : List String} (j : Nat), lexLeB a b = true →
    a.take j = b.take j → j < a.length → j < b.length →
    goStrLt (b.getD j "") (a.getD j "") = false
  | [], _, j, _, _, hja, _ => by simp at hja
  | _ :: _, [], _, h, _, _, _ => by simp [lexLeB] at h
  | x :: xs, y :: ys, 0, h, _, _, _ => by
    rcases goStrLt_cases x y with hxy | hxy | hxy
    · simp [List.getD_cons_zero, goStrLt_asymm hxy]
    · subst hxy; simp [List.getD_cons_zero, goStrLt_irrefl]
    · simp [lexLeB, hxy, goStrLt_asymm hxy] at h
  | x :: xs, y :: ys, j + 1, h, htake, hja, hjb => by
    simp only [List.take_succ_cons, List.cons.injEq] at htake
    obtain ⟨hxy, htake⟩ := htake
    subst hxy
    simp only [lexLeB, goStrLt_irrefl, if_false] at h
    simp only [List.getD_cons_succ]
    exact lexLeB_getD_mono j h htake (by simpa using hja) (by simpa using hjb)

/-! ### Indexing helpers -/

theorem getD_mem {α : Type} {l : List α} {m : Nat} (d : α) (h : m < l.length) :
    l.getD m d ∈ l := by
  rw [List.getD_eq_getElem _ _ h]
  exact List.getElem_mem h

theorem mem_take_idx {α : Type} {l : List α} {n : Nat} {x : α} (d : α) (h : x ∈ l.take n) :
    ∃ m, m < n ∧ m < l.length ∧ l.getD m d = x := by
  rcases List.mem_iff_getElem.mp h with ⟨i, hi, hx⟩
  have hlen : i < n ∧ i < l.length := by
    rw [List.length_take] at hi; omega
  refine ⟨i, hlen.1, hlen.2, ?_⟩
  rw [List.getElem_take] at hx
  rw [List.getD_eq_getElem _ _ hlen.2, hx]

theorem mem_drop_idx {α : Type} {l : List α} {n : Nat} {x : α} (d : α) (h : x ∈ l.drop n) :
    ∃ m, n ≤ m ∧ m < l.length ∧ l.getD m d = x := by
  rcases List.mem_iff_getElem.mp h with ⟨i, hi, hx⟩
  have hlen : n + i < l.length := by
    rw [List.length_drop] at hi; omega
  refine ⟨n + i, by omega, hlen, ?_⟩
  rw [List.getElem_drop] at hx
  rw [List.getD_eq_getElem _ _ hlen, hx]

theorem pairwise_getD {R : Rule → Rule → Prop} {p : Policies} (hp : List.Pairwise R p)
    {m m' : Nat} (h : m < m') (h2 : m' < p.length) :
    R (p.getD m []) (p.getD m' []) := by
  rw [List.getD_eq_getElem _ _ (lt_trans h h2), List.getD_eq_getElem _ _ h2]
  exact List.pairwise_iff_getElem.mp hp m m' _ _ h

theorem sortedLe_getD_le {p : Policies} (hp : SortedLe p) {m m' : Nat}
    (h : m ≤ m') (h2 : m' < p.length) :
    lexLeB (p.getD m []) (p.getD m' []) = true := by
  rcases Nat.lt_or_ge m m' with hlt | hge
  · exact pairwise_getD hp hlt h2
  · have : m = m' := by omega
    subst this
    exact lexLeB_refl _

/-! ### The `sort.Search` loop -/

theorem sortSearchGo_some (f : Nat → Option Bool) :
    ∀ (fuel lo hi : Nat), lo ≤ hi → hi - lo ≤ fuel →
      (∀ m, lo ≤ m → m < hi → (f m).isSome = true) →
      ∃ r, sortSearchGo f fuel lo hi = some r ∧ lo ≤ r ∧ r ≤ hi := by
  intro fuel
  induction fuel with
  | zero =>
    intro lo hi h1 _ _
    exact ⟨lo, rfl, le_refl lo, h1⟩
  | succ n ih =>
    intro lo hi h1 h2 hf
    by_cases hlt : lo < hi
    · have hm : lo ≤ (lo + hi) / 2 ∧ (lo + hi) / 2 < hi := by omega
      rcases Option.isSome_iff_exists.mp (hf _ hm.1 hm.2) with ⟨b, hb⟩
      cases b with
      | true =>
        rcases ih lo ((lo + hi) / 2) hm.1 (by omega)
            (fun m hm1 hm2 => hf m hm1 (by omega)) with ⟨r, hr, hr1, hr2⟩
        exact ⟨r, by simp [sortSearchGo, hlt, hb, hr], hr1, by omega⟩
      | false =>
        rcases ih ((lo + hi) / 2 + 1) hi (by omega) (by omega)
            (fun m hm1 hm2 => hf m (by omega) hm2) with ⟨r, hr, hr1, hr2⟩
        exact ⟨r, by simp [sortSearchGo, hlt, hb, hr], by omega, hr2⟩
    · exact ⟨lo, by simp [sortSearchGo, hlt], le_refl lo, h1⟩

theorem sortSearchGo_bound (f : Nat → Option Bool) (g : Nat → Bool) :
    ∀ (fuel lo hi : Nat), lo ≤ hi → hi - lo ≤ fuel →
      (∀ m, lo ≤ m → m < hi → f m = some (g m)) →
      (∀ m m', lo ≤ m → m ≤ m' → m' < hi → g m = true → g m' = true) →
      ∃ r, sortSearchGo f fuel lo hi = some r ∧ lo ≤ r ∧ r ≤ hi ∧
        (∀ m, lo ≤ m → m < r → g m = false) ∧
        (∀ m, r ≤ m → m < hi → g m = true) := by
  intro fuel
  induction fuel with
  | zero =>
    intro lo hi h1 h2 _ _
    have : lo = hi := by omega
    subst this
    exact ⟨lo, rfl, le_refl lo, le_refl lo, fun m hm1 hm2 => by omega,
      fun m hm1 hm2 => by omega⟩
  | succ n ih =>
    intro lo hi h1 h2 hf hmono
    by_cases hlt : lo < hi
    · have hm : lo ≤ (lo + hi) / 2 ∧ (lo + hi) / 2 < hi := by omega
      have hb := hf _ hm.1 hm.2
      cases hgm : g ((lo + hi) / 2) with
      | true =>
        rw [hgm] at hb
        rcases ih lo ((lo + hi) / 2) hm.1 (by omega)
            (fun m hm1 hm2 => hf m hm1 (by omega))
            (fun m m' hm1 hm2 hm3 => hmono m m' hm1 hm2 (by omega)) with
          ⟨r, hr, hr1, hr2, hbelow, habove⟩
        refine ⟨r, by simp [sortSearchGo, hlt, hb, hr], hr1, by omega, hbelow, ?_⟩
        intro m hm1 hm2
        rcases Nat.lt_or_ge m ((lo + hi) / 2) with hmlt | hmge
        · exact habove m hm1 hmlt
        · exact hmono _ m hm.1 hmge hm2 hgm
      | false =>
        rw [hgm] at hb
        rcases ih ((lo + hi) / 2 + 1) hi (by omega) (by omega)
            (fun m hm1 hm2 => hf m (by omega) hm2)
            (fun m m' hm1 hm2 hm3 => hmono m m' (by omega) hm2 hm3) with
          ⟨r, hr, hr1, hr2, hbelow, habove⟩
        refine ⟨r, by simp [sortSearchGo, hlt, hb, hr], by omega, hr2, ?_, habove⟩
        intro m hm1 hm2
        rcases Nat.lt_or_ge m ((lo + hi) / 2 + 1) with hmlt | hmge
        · cases hgm2 : g m with
          | false => rfl
          | true =>
            have hc := hmono m ((lo + hi) / 2) hm1 (by omega) hm.2 hgm2
            rw [hgm] at hc
            exact Bool.noConfusion hc
        · exact hbelow m hmge hm2
    · have : lo = hi := by omega
      subst this
      exact ⟨lo, by simp [sortSearchGo, hlt], le_refl lo, le_refl lo,
        fun m hm1 hm2 => by omega, fun m hm1 hm2 => by omega⟩

/-! ### `Policies.search` -/

theorem search_total {p : Policies} {rule : Rule}
    (hlen : ∀ x ∈ p, rule.length ≤ x.length) :
    ∃ i, search p rule = some i ∧ i ≤ p.length := by
  have hf : ∀ m, 0 ≤ m → m < p.length →
      ((fun i => match p[i]? with | some x => searchPredAux rule x | none => none) m).isSome
        = true := by
    intro m _ hm
    simp only
    rw [List.getElem?_eq_getElem hm]
    show (searchPredAux rule p[m]).isSome = true
    rw [searchPredAux_eq (hlen _ (List.getElem_mem hm))]
    rfl
  rcases sortSearchGo_some
      (fun i => match p[i]? with | some x => searchPredAux rule x | none => none)
      p.length 0 p.length (Nat.zero_le _) (by omega) hf with ⟨r, hr, _, hr2⟩
  exact ⟨r, hr, hr2⟩

theorem search_spec {p : Policies} {rule : Rule} (hs : SortedLe p)
    (hlen : ∀ x ∈ p, rule.length ≤ x.length) :
    ∃ i, search p rule = some i ∧ i ≤ p.length ∧
      (∀ m, m < i → prefLe rule (p.getD m []) = false) ∧
      (∀ m, i ≤ m → m < p.length → prefLe rule (p.getD m []) = true) := by
  have hf : ∀ m, 0 ≤ m → m < p.length →
      (match p[m]? with | some x => searchPredAux rule x | none => none) =
        some (prefLe rule (p.getD m [])) := by
    intro m _ hm
    rw [List.getElem?_eq_getElem hm]
    show searchPredAux rule p[m] = some (prefLe rule (p.getD m []))
    rw [List.getD_eq_getElem _ _ hm]
    exact searchPredAux_eq (hlen _ (List.getElem_mem hm))
  have hmono : ∀ m m', 0 ≤ m → m ≤ m' → m' < p.length →
      prefLe rule (p.getD m []) = true → prefLe rule (p.getD m' []) = true := by
    intro m m' _ hmm hm' hpm
    have hm : m < p.length := lt_of_le_of_lt hmm hm'
    have h1 : lexLeB (p.getD m []) (p.getD m' []) = true := sortedLe_getD_le hs hmm hm'
    have hl1 : rule.length ≤ (p.getD m []).length := hlen _ (getD_mem [] hm)
    have hl2 : rule.length ≤ (p.getD m' []).length := hlen _ (getD_mem [] hm')
    rw [prefLe_eq_take hl1] at hpm
    rw [prefLe_eq_take hl2]
    exact lexLeB_trans hpm (lexLeB_take _ h1)
  rcases sortSearchGo_bound
      (fun i => match p[i]? with | some x => searchPredAux rule x | none => none)
      (fun m => prefLe rule (p.getD m [])) p.length 0 p.length (Nat.zero_le _)
      (by omega) hf hmono with ⟨r, hr, _, hr2, hb, ha⟩
  exact ⟨r, hr, hr2, fun m hm => hb m (Nat.zero_le _) hm, ha⟩

/-! ### Corollaries about the prefix order -/

theorem prefLe_full {rule x : List String} (h : rule.length = x.length) :
    prefLe rule x = lexLeB rule x := by
  rw [prefLe_eq_take (le_of_eq h), h, List.take_length]

theorem prefLe_of_take_eq {rule x : List String} (h : x.take rule.length = rule) :
    prefLe rule x = true := by
  have hlen : rule.length ≤ x.length := by
    have hl := congrArg List.length h
    rw [List.length_take] at hl
    omega
  rw [prefLe_eq_take hlen, h]
  exact lexLeB_refl rule

/-! ### `Policies.Insert` -/

theorem insert_splice_sorted {p : Policies} {rule : Rule} {w : Nat} {i : Nat}
    (hs : SortedLe p) (hw : Widths w p) (hr : rule.length = w)
    (hlow : ∀ m, m < i → lexLeB (p.getD m []) rule = true ∧ p.getD m [] ≠ rule)
    (hhigh : ∀ m, i ≤ m → m < p.length → lexLeB rule (p.getD m []) = true)
    (hne : ∀ m, i ≤ m → m < p.length → p.getD m [] ≠ rule) :
    SortedLe (p.take i ++ rule :: p.drop i) ∧ Widths w (p.take i ++ rule :: p.drop i) ∧
      (SortedLt p → SortedLt (p.take i ++ rule :: p.drop i)) := by
  have hA : ∀ x ∈ p.take i, lexLeB x rule = true ∧ x ≠ rule := by
    intro x hx
    rcases mem_take_idx [] hx with ⟨m, hm1, _, hm3⟩
    rw [← hm3]
    exact hlow m hm1
  have hB : ∀ y ∈ p.drop i, lexLeB rule y = true ∧ rule ≠ y := by
    intro y hy
    rcases mem_drop_idx [] hy with ⟨m, hm1, hm2, hm3⟩
    rw [← hm3]
    exact ⟨hhigh m hm1 hm2, fun he => hne m hm1 hm2 he.symm⟩
  have hcross : ∀ {R : Rule → Rule → Prop}, List.Pairwise R p →
      ∀ x ∈ p.take i, ∀ y ∈ p.drop i, R x y := by
    intro R hR x hx y hy
    rcases mem_take_idx [] hx with ⟨m, hm1, _, hm3⟩
    rcases mem_drop_idx [] hy with ⟨m', hm1', hm2', hm3'⟩
    rw [← hm3, ← hm3']
    exact pairwise_getD hR (lt_of_lt_of_le hm1 hm1') hm2'
  refine ⟨?_, ?_, ?_⟩
  · unfold SortedLe
    rw [List.pairwise_append]
    refine ⟨List.Pairwise.sublist (List.take_sublist i p) hs, ?_, ?_⟩
    · rw [List.pairwise_cons]
      exact ⟨fun y hy => (hB y hy).1, List.Pairwise.sublist (List.drop_sublist i p) hs⟩
    · intro x hx y hy
      rcases List.mem_cons.mp hy with h | h
      · rw [h]
        exact (hA x hx).1
      · exact hcross hs x hx y h
  · intro x hx
    rcases List.mem_append.mp hx with h | h
    · exact hw _ (List.take_subset i p h)
    · rcases List.mem_cons.mp h with h2 | h2
      · rw [h2]; exact hr
      · exact hw _ (List.drop_subset i p h2)
  · intro hst
    unfold SortedLt at hst ⊢
    rw [List.pairwise_append]
    refine ⟨List.Pairwise.sublist (List.take_sublist i p) hst, ?_, ?_⟩
    · rw [List.pairwise_cons]
      exact ⟨fun y hy => ⟨(hB y hy).1, (hB y hy).2⟩,
        List.Pairwise.sublist (List.drop_sublist i p) hst⟩
    · intro x hx y hy
      rcases List.mem_cons.mp hy with h | h
      · rw [h]
        exact hA x hx
      · exact hcross hst x hx y h

theorem Insert_spec {p : Policies} {rule : Rule} {w : Nat}
    (hs : SortedLe p) (hw : Widths w p) (hr : rule.length = w) :
    ∃ q, Insert p rule = some q ∧ SortedLe q ∧ Widths w q ∧ rule ∈ q ∧
      (SortedLt p → SortedLt q) := by
  have hlen : ∀ x ∈ p, rule.length ≤ x.length := fun x hx => by rw [hr, hw x hx]
  rcases search_spec hs hlen with ⟨i, hi, hile, hup, hdown⟩
  have hfull : ∀ m, m < p.length → prefLe rule (p.getD m []) = lexLeB rule (p.getD m []) :=
    fun m hm => prefLe_full (by rw [hr, hw _ (getD_mem [] hm)])
  have hlow : ∀ m, m < i → lexLeB (p.getD m []) rule = true ∧ p.getD m [] ≠ rule := by
    intro m hm
    have hmlen : m < p.length := lt_of_lt_of_le hm hile
    have h0 : lexLeB rule (p.getD m []) = false := by
      rw [← hfull m hmlen]
      exact hup m hm
    constructor
    · rcases lexLeB_total (p.getD m []) rule with h | h
      · exact h
      · rw [h0] at h
        exact Bool.noConfusion h
    · intro he
      rw [he, lexLeB_refl] at h0
      exact Bool.noConfusion h0
  have hhigh : ∀ m, i ≤ m → m < p.length → lexLeB rule (p.getD m []) = true := by
    intro m h1 h2
    rw [← hfull m h2]
    exact hdown m h1 h2
  by_cases hilt : i < p.length
  · by_cases heq : p.getD i [] = rule
    · have hbeq : stringSliceEqual p[i] rule = true := by
        rw [List.getD_eq_getElem _ _ hilt] at heq
        exact beq_iff_eq.mpr heq
      refine ⟨p, by simp [Insert, hi, dif_pos hilt, hbeq], hs, hw, ?_, fun h => h⟩
      rw [← heq]
      exact getD_mem [] hilt
    · have hne : ∀ m, i ≤ m → m < p.length → p.getD m [] ≠ rule := by
        intro m h1 h2 he
        have ha : lexLeB (p.getD i []) rule = true := by
          have := sortedLe_getD_le hs h1 h2
          rwa [he] at this
        exact heq (lexLeB_antisymm ha (hhigh i (le_refl i) hilt))
      have hbeq : stringSliceEqual p[i] rule = false := by
        rw [List.getD_eq_getElem _ _ hilt] at heq
        rw [stringSliceEqual]
        exact beq_eq_false_iff_ne.mpr heq
      rcases insert_splice_sorted hs hw hr hlow hhigh hne with ⟨h1, h2, h3⟩
      refine ⟨p.take i ++ rule :: p.drop i,
        by simp [Insert, hi, dif_pos hilt, hbeq], h1, h2, ?_, h3⟩
      exact List.mem_append.mpr (Or.inr (List.mem_cons_self rule _))
  · have hieq : i = p.length := by omega
    have hne : ∀ m, i ≤ m → m < p.length → p.getD m [] ≠ rule := by
      intro m h1 h2
      omega
    rcases insert_splice_sorted hs hw hr hlow hhigh hne with ⟨h1, h2, h3⟩
    have hform : p.take i ++ rule :: p.drop i = p ++ [rule] := by
      rw [hieq, List.take_length, List.drop_length]
    rw [hform] at h1 h2 h3
    refine ⟨p ++ [rule], by simp [Insert, hi, dif_neg hilt], h1, h2, ?_, h3⟩
    exact List.mem_append.mpr (Or.inr (List.mem_cons_self rule _))

theorem Insert_noop {p : Policies} {rule : Rule} {w : Nat}
    (hs : SortedLe p) (hw : Widths w p) (hr : rule.length = w) (hmem : rule ∈ p) :
    Insert p rule = some p := by
  have hlen : ∀ x ∈ p, rule.length ≤ x.length := fun x hx => by rw [hr, hw x hx]
  rcases search_spec hs hlen with ⟨i, hi, hile, hup, hdown⟩
  rcases List.mem_iff_getElem.mp hmem with ⟨t, ht, hrt⟩
  have hti : i ≤ t := by
    by_contra hc
    push_neg at hc
    have h0 := hup t hc
    rw [List.getD_eq_getElem _ _ ht, hrt, prefLe_full rfl, lexLeB_refl] at h0
    exact Bool.noConfusion h0
  have hilt : i < p.length := lt_of_le_of_lt hti ht
  have h1 : lexLeB rule (p.getD i []) = true := by
    have := hdown i (le_refl i) hilt
    rwa [prefLe_full (by rw [hr, hw _ (getD_mem [] hilt)])] at this
  have h2 : lexLeB (p.getD i []) rule = true := by
    have := sortedLe_getD_le hs hti ht
    rwa [List.getD_eq_getElem _ _ ht, hrt] at this
  have heq : p.getD i [] = rule := lexLeB_antisymm h2 h1
  have hbeq : stringSliceEqual p[i] rule = true := by
    rw [List.getD_eq_getElem _ _ hilt] at heq
    exact beq_iff_eq.mpr heq
  simp [Insert, hi, dif_pos hilt, hbeq]

/-! ### `Policies.Remove` and `Policies.Find` -/

theorem Remove_sublist {p : Policies} {rule : Rule}
    (hlen : ∀ x ∈ p, rule.length ≤ x.length) :
    ∃ q, Remove p rule = some q ∧ q.Sublist p := by
  rcases search_total hlen with ⟨i, hi, hile⟩
  by_cases hilt : i < p.length
  · by_cases heq : stringSliceEqual p[i] rule = true
    · refine ⟨p.take i ++ p.drop (i + 1), by simp [Remove, hi, dif_pos hilt, heq], ?_⟩
      have h1 : (p.drop (i + 1)).Sublist (p.drop i) := by
        have h0 := List.drop_sublist 1 (p.drop i)
        rwa [List.drop_drop] at h0
      have h2 := List.Sublist.append_left h1 (p.take i)
      rwa [List.take_append_drop] at h2
    · exact ⟨p, by simp [Remove, hi, dif_pos hilt, heq], List.Sublist.refl p⟩
  · exact ⟨p, by simp [Remove, hi, dif_neg hilt], List.Sublist.refl p⟩

theorem Remove_not_mem {p : Policies} {rule : Rule} {w : Nat}
    (hs : SortedLe p) (hnd : p.Nodup) (hw : Widths w p) (hr : rule.length = w) :
    ∃ q, Remove p rule = some q ∧ q.Sublist p ∧ rule ∉ q := by
  have hlen : ∀ x ∈ p, rule.length ≤ x.length := fun x hx => by rw [hr, hw x hx]
  rcases search_spec hs hlen with ⟨i, hi, hile, hup, hdown⟩
  have hlow : ∀ m, m < i → p.getD m [] ≠ rule := by
    intro m hm he
    have h0 := hup m hm
    rw [he, prefLe_full rfl, lexLeB_refl] at h0
    exact Bool.noConfusion h0
  by_cases hilt : i < p.length
  · by_cases heq : p.getD i [] = rule
    · have hbeq : stringSliceEqual p[i] rule = true := by
        rw [List.getD_eq_getElem _ _ hilt] at heq
        exact beq_iff_eq.mpr heq
      have hsub : (p.take i ++ p.drop (i + 1)).Sublist p := by
        have h1 : (p.drop (i + 1)).Sublist (p.drop i) := by
          have h0 := List.drop_sublist 1 (p.drop i)
          rwa [List.drop_drop] at h0
        have h2 := List.Sublist.append_left h1 (p.take i)
        rwa [List.take_append_drop] at h2
      refine ⟨p.take i ++ p.drop (i + 1),
        by simp [Remove, hi, dif_pos hilt, hbeq], hsub, ?_⟩
      intro hmem
      rcases List.mem_append.mp hmem with h | h
      · rcases mem_take_idx [] h with ⟨m, hm1, _, hm3⟩
        exact hlow m hm1 hm3
      · rcases mem_drop_idx [] h with ⟨m, hm1, hm2, hm3⟩
        have hne : p.getD i [] ≠ p.getD m [] := by
          have := pairwise_getD (List.Pairwise.imp (fun h => h) hnd)
            (show i < m by omega) hm2
          exact this
        rw [hm3, heq] at hne
        exact hne rfl
    · have hnmem : rule ∉ p := by
        intro hmem
        rcases List.mem_iff_getElem.mp hmem with ⟨t, ht, hrt⟩
        have hti : i ≤ t := by
          by_contra hc
          push_neg at hc
          exact hlow t hc (by rw [List.getD_eq_getElem _ _ ht, hrt])
        have ha : lexLeB (p.getD i []) rule = true := by
          have := sortedLe_getD_le hs hti ht
          rwa [List.getD_eq_getElem _ _ ht, hrt] at this
        have hb : lexLeB rule (p.getD i []) = true := by
          have := hdown i (le_refl i) hilt
          rwa [prefLe_full (by rw [hr, hw _ (getD_mem [] hilt)])] at this
        exact heq (lexLeB_antisymm ha hb)
      have hbeq : stringSliceEqual p[i] rule = false := by
        rw [List.getD_eq_getElem _ _ hilt] at heq
        rw [stringSliceEqual]
        exact beq_eq_false_iff_ne.mpr heq
      exact ⟨p, by simp [Remove, hi, dif_pos hilt, hbeq], List.Sublist.refl p, hnmem⟩
  · have hnmem : rule ∉ p := by
      intro hmem
      rcases List.mem_iff_getElem.mp hmem with ⟨t, ht, hrt⟩
      have : t < i := by omega
      exact hlow t this (by rw [List.getD_eq_getElem _ _ ht, hrt])
    exact ⟨p, by simp [Remove, hi, dif_neg hilt], List.Sublist.refl p, hnmem⟩

theorem Find_total_none {q : Policies} {rule : Rule}
    (hlen : ∀ x ∈ q, rule.length ≤ x.length)
    (hnm : ∀ x ∈ q, x.take rule.length ≠ rule) :
    Find q rule = some none := by
  rcases search_total hlen with ⟨i, hi, hile⟩
  by_cases hilt : i < q.length
  · have hx := hnm _ (List.getElem_mem hilt)
    have hxl : rule.length ≤ q[i].length := hlen _ (List.getElem_mem hilt)
    have hbeq : stringSliceEqual (q[i].take rule.length) rule = false := by
      rw [stringSliceEqual]
      exact beq_eq_false_iff_ne.mpr hx
    simp [Find, hi, dif_pos hilt, hxl, hbeq]
  · simp [Find, hi, dif_neg hilt]

theorem Find_spec {p : Policies} {rule : Rule} (hs : SortedLe p)
    (hlen : ∀ x ∈ p, rule.length ≤ x.length) :
    (∃ x, Find p rule = some (some x) ∧ x ∈ p ∧ x.take rule.length = rule) ∨
      (Find p rule = some none ∧ ∀ x ∈ p, x.take rule.length ≠ rule) := by
  by_cases hex : ∀ x ∈ p, x.take rule.length ≠ rule
  · exact Or.inr ⟨Find_total_none hlen hex, hex⟩
  · push_neg at hex
    rcases hex with ⟨y, hy, hyt⟩
    rcases search_spec hs hlen with ⟨i, hi, hile, hup, hdown⟩
    rcases List.mem_iff_getElem.mp hy with ⟨t, ht, hyt2⟩
    have hti : i ≤ t := by
      by_contra hc
      push_neg at hc
      have h0 := hup t hc
      rw [List.getD_eq_getElem _ _ ht, hyt2, prefLe_of_take_eq hyt] at h0
      exact Bool.noConfusion h0
    have hilt : i < p.length := lt_of_le_of_lt hti ht
    have h1 : lexLeB rule ((p.getD i []).take rule.length) = true := by
      have := hdown i (le_refl i) hilt
      rwa [prefLe_eq_take (hlen _ (getD_mem [] hilt))] at this
    have h2 : lexLeB ((p.getD i []).take rule.length) rule = true := by
      have h3 : lexLeB (p.getD i []) (p.getD t []) = true := sortedLe_getD_le hs hti ht
      have h4 := lexLeB_take rule.length h3
      rw [List.getD_eq_getElem _ _ ht, hyt2, hyt] at h4
      exact h4
    have heq : (p.getD i []).take rule.length = rule := lexLeB_antisymm h2 h1
    rw [List.getD_eq_getElem _ _ hilt] at heq
    refine Or.inl ⟨p[i], ?_, List.getElem_mem hilt, heq⟩
    have hxl : rule.length ≤ p[i].length := hlen _ (List.getElem_mem hilt)
    have hbeq : stringSliceEqual (p[i].take rule.length) rule = true := beq_iff_eq.mpr heq
    simp [Find, hi, dif_pos hilt, hxl, hbeq]

/-! ### Pattern matching and the linear scan -/

theorem matchesPattern_append : ∀ (p1 p2 x : List String),
    matchesPattern (p1 ++ p2) x =
      (matchesPattern p1 x && matchesPattern p2 (x.drop p1.length))
  | [], p2, x => by simp [matchesPattern]
  | s :: p1, p2, [] => by simp [matchesPattern]
  | s :: p1, p2, v :: vs => by
    simp only [List.cons_append, matchesPattern, List.length_cons, List.drop_succ_cons,
      List.append_eq]
    rw [matchesPattern_append p1 p2 vs, Bool.and_assoc]

theorem matchesPattern_no_empty : ∀ {pre x : List String},
    (∀ s ∈ pre, s ≠ "") → pre.length ≤ x.length →
    (matchesPattern pre x = true ↔ x.take pre.length = pre)
  | [], x, _, _ => by simp [matchesPattern]
  | s :: pre, [], _, h => by simp at h
  | s :: pre, v :: vs, hne, h => by
    have hs : s ≠ "" := hne s (List.mem_cons_self s pre)
    have ih := matchesPattern_no_empty (x := vs)
      (fun t ht => hne t (List.mem_cons_of_mem s ht)) (by simpa using h)
    simp [matchesPattern, hs, List.take_succ_cons, List.cons.injEq, ih]

theorem matchesPattern_single_wildcard {x : List String} (hx : x ≠ []) :
    matchesPattern [""] x = true := by
  cases x with
  | nil => exact absurd rfl hx
  | cons v vs => simp [matchesPattern]

theorem bruteCheck_eq (x : Rule) : ∀ (pat : List String) (k : Nat),
    k + pat.length ≤ x.length →
    bruteCheck x k pat = some (matchesPattern pat (x.drop k))
  | [], k, _ => by simp [bruteCheck, matchesPattern]
  | s :: pat, k, h => by
    have hk : k < x.length := by
      simp only [List.length_cons] at h
      omega
    have hds : x.drop k = x[k] :: x.drop (k + 1) := List.drop_eq_getElem_cons hk
    have hlen : k + 1 + pat.length ≤ x.length := by
      simp only [List.length_cons] at h
      omega
    by_cases hs : s = ""
    · subst hs
      simp only [bruteCheck, if_pos rfl]
      rw [bruteCheck_eq x pat (k + 1) hlen, hds]
      simp [matchesPattern]
    · simp only [bruteCheck, if_neg hs]
      rw [List.getElem?_eq_getElem hk]
      simp only
      by_cases hv : x[k] = s
      · rw [if_pos hv, bruteCheck_eq x pat (k + 1) hlen, hds]
        simp [matchesPattern, hv]
      · rw [if_neg hv, hds]
        simp [matchesPattern, beq_eq_false_iff_ne.mpr hv, beq_eq_false_iff_ne.mpr hs]

theorem bruteFilter_eq (k : Nat) (pat : List String) (b : Rule → Bool) :
    ∀ q : Policies, (∀ x ∈ q, bruteCheck x k pat = some (b x)) →
    bruteFilter k pat q = some (q.filter b)
  | [], _ => by simp [bruteFilter]
  | x :: xs, h => by
    simp only [bruteFilter]
    rw [h x (List.mem_cons_self x xs),
      bruteFilter_eq k pat b xs (fun y hy => h y (List.mem_cons_of_mem x hy))]
    by_cases hb : b x = true
    · simp [List.filter_cons, hb]
    · simp [List.filter_cons, hb]

/-! ### The binary-search narrowing step of `Filter` -/

theorem idx2_eq {l : Policies} {w j m : Nat} (hl : ∀ x ∈ l, x.length = w)
    (hj : j < w) (hm : m < l.length) :
    idx2 l m j = some ((l.getD m []).getD j "") := by
  simp only [idx2]
  rw [List.getElem?_eq_getElem hm]
  simp only
  have hjx : j < l[m].length := by
    rw [hl _ (List.getElem_mem hm)]
    exact hj
  rw [List.getElem?_eq_getElem hjx, List.getD_eq_getElem l [] hm,
    List.getD_eq_getElem _ "" hjx]

theorem goStrLt_mono_ge {u v s0 : String} (hvu : goStrLt v u = false)
    (hus : goStrLt u s0 = false) : goStrLt v s0 = false := by
  cases hvs : goStrLt v s0 with
  | false => rfl
  | true =>
    rcases goStrLt_cases s0 u with h | h | h
    · have h2 := goStrLt_trans hvs h
      rw [h2] at hvu
      exact Bool.noConfusion hvu
    · rw [h] at hvs
      rw [hvs] at hvu
      exact Bool.noConfusion hvu
    · exact Bool.noConfusion (hus.symm.trans h)

theorem goStrLt_mono_gt {u v s0 : String} (hvu : goStrLt v u = false)
    (hsu : goStrLt s0 u = true) : goStrLt s0 v = true := by
  rcases goStrLt_cases u v with h | h | h
  · exact goStrLt_trans hsu h
  · rw [← h]
    exact hsu
  · rw [h] at hvu
    exact Bool.noConfusion hvu

theorem narrowStep_spec {q : Policies} {j : Nat} {s : String} {w : Nat}
    (hs : SortedLe q) (hw : Widths w q) (hj : j < w)
    (hpre : ∀ x ∈ q, ∀ y ∈ q, x.take j = y.take j) :
    narrowStep q j s = some (q.filter fun x => x.getD j "" == s) := by
  -- position-j values are monotone along any sorted slice with equal prefixes
  have hvmono : ∀ (l : Policies), SortedLe l → (∀ x ∈ l, x.length = w) →
      (∀ x ∈ l, ∀ y ∈ l, x.take j = y.take j) → ∀ m m', m ≤ m' → m' < l.length →
      goStrLt ((l.getD m' []).getD j "") ((l.getD m []).getD j "") = false := by
    intro l hsl hwl hprel m m' hmm hm'
    have hm : m < l.length := lt_of_le_of_lt hmm hm'
    exact lexLeB_getD_mono j (sortedLe_getD_le hsl hmm hm')
      (hprel _ (getD_mem [] hm) _ (getD_mem [] hm'))
      (by rw [hwl _ (getD_mem [] hm)]; exact hj)
      (by rw [hwl _ (getD_mem [] hm')]; exact hj)
  -- first binary search: least index with value ≥ s
  have hf1 : ∀ m, 0 ≤ m → m < q.length →
      ((idx2 q m j).map fun v => !goStrLt v s) =
        some (!goStrLt ((q.getD m []).getD j "") s) := by
    intro m _ hm
    rw [idx2_eq hw hj hm]
    rfl
  have hm1 : ∀ m m', 0 ≤ m → m ≤ m' → m' < q.length →
      (!goStrLt ((q.getD m []).getD j "") s) = true →
      (!goStrLt ((q.getD m' []).getD j "") s) = true := by
    intro m m' _ hmm hm' h
    rw [Bool.not_eq_true'] at h ⊢
    exact goStrLt_mono_ge (hvmono q hs hw hpre m m' hmm hm') h
  rcases sortSearchGo_bound
      (fun i => (idx2 q i j).map fun v => !goStrLt v s)
      (fun m => !goStrLt ((q.getD m []).getD j "") s)
      q.length 0 q.length (Nat.zero_le _) (by omega) hf1 hm1 with
    ⟨start, hstart, _, hstartle, hlow1, hhigh1⟩
  -- the dropped slice
  have hw1 : ∀ x ∈ q.drop start, x.length = w := fun x hx => hw x (List.drop_subset start q hx)
  have hs1 : SortedLe (q.drop start) := List.Pairwise.sublist (List.drop_sublist start q) hs
  have hpre1 : ∀ x ∈ q.drop start, ∀ y ∈ q.drop start, x.take j = y.take j :=
    fun x hx y hy => hpre x (List.drop_subset start q hx) y (List.drop_subset start q hy)
  have hgetD1 : ∀ m, m < (q.drop start).length →
      (q.drop start).getD m [] = q.getD (start + m) [] := by
    intro m hm
    have hm2 : start + m < q.length := by
      rw [List.length_drop] at hm
      omega
    rw [List.getD_eq_getElem _ [] hm, List.getElem_drop, List.getD_eq_getElem _ [] hm2]
  -- second binary search: least index of the remainder with value > s
  have hf2 : ∀ m, 0 ≤ m → m < (q.drop start).length →
      ((idx2 (q.drop start) m j).map fun v => goStrLt s v) =
        some (goStrLt s (((q.drop start).getD m []).getD j "")) := by
    intro m _ hm
    rw [idx2_eq hw1 hj hm]
    rfl
  have hm2 : ∀ m m', 0 ≤ m → m ≤ m' → m' < (q.drop start).length →
      goStrLt s (((q.drop start).getD m []).getD j "") = true →
      goStrLt s (((q.drop start).getD m' []).getD j "") = true := by
    intro m m' _ hmm hm' h
    exact goStrLt_mono_gt (hvmono _ hs1 hw1 hpre1 m m' hmm hm') h
  rcases sortSearchGo_bound
      (fun i => (idx2 (q.drop start) i j).map fun v => goStrLt s v)
      (fun m => goStrLt s (((q.drop start).getD m []).getD j ""))
      (q.drop start).length 0 (q.drop start).length (Nat.zero_le _) (by omega) hf2 hm2 with
    ⟨e, hend, _, hendle, hlow2, hhigh2⟩
  -- elementwise value facts on the three segments
  have hseg1 : ∀ x ∈ q.take start, (x.getD j "" == s) = false := by
    intro x hx
    rcases mem_take_idx [] hx with ⟨m, hm1, hm2, hm3⟩
    have h0 := hlow1 m (Nat.zero_le m) hm1
    rw [Bool.not_eq_false'] at h0
    rw [← hm3]
    refine beq_eq_false_iff_ne.mpr fun he => ?_
    rw [he] at h0
    have h1 : goStrLt s s = false := goStrLt_irrefl s
    exact Bool.noConfusion (h1.symm.trans h0)
  have hseg2 : ∀ x ∈ (q.drop start).take e, (x.getD j "" == s) = true := by
    intro x hx
    rcases mem_take_idx [] hx with ⟨m, hm1, hm2, hm3⟩
    have hge : goStrLt (((q.drop start).getD m []).getD j "") s = false := by
      have hstartm : start + m < q.length := by
        rw [List.length_drop] at hm2
        omega
      have h0 := hhigh1 (start + m) (by omega) hstartm
      rw [Bool.not_eq_true'] at h0
      rw [hgetD1 m hm2]
      exact h0
    have hle : goStrLt s (((q.drop start).getD m []).getD j "") = false := by
      cases h0 : goStrLt s (((q.drop start).getD m []).getD j "") with
      | false => rfl
      | true =>
        have h1 := hlow2 m (Nat.zero_le m) hm1
        exact Bool.noConfusion (h1.symm.trans h0)
    rw [← hm3]
    exact beq_iff_eq.mpr (goStrLt_eq_of_not hge hle)
  have hseg3 : ∀ x ∈ (q.drop start).drop e, (x.getD j "" == s) = false := by
    intro x hx
    rcases mem_drop_idx [] hx with ⟨m, hm1, hm2, hm3⟩
    have h0 := hhigh2 m hm1 hm2
    rw [← hm3]
    refine beq_eq_false_iff_ne.mpr fun he => ?_
    rw [he] at h0
    have h1 : goStrLt s s = false := goStrLt_irrefl s
    exact Bool.noConfusion (h1.symm.trans h0)
  -- assemble: the filter is exactly the kept middle segment
  have hfilter : q.filter (fun x => x.getD j "" == s) = (q.drop start).take e := by
    have hq : q.filter (fun x => x.getD j "" == s) =
        (q.take start).filter (fun x => x.getD j "" == s) ++
          (((q.drop start).take e).filter (fun x => x.getD j "" == s) ++
            ((q.drop start).drop e).filter (fun x => x.getD j "" == s)) := by
      rw [← List.filter_append, ← List.filter_append, List.take_append_drop,
        List.take_append_drop]
    rw [hq, List.filter_eq_nil_iff.mpr (fun a ha => by rw [hseg1 a ha]; exact Bool.noConfusion),
      List.filter_eq_self.mpr hseg2,
      List.filter_eq_nil_iff.mpr (fun a ha => by rw [hseg3 a ha]; exact Bool.noConfusion)]
    simp
  simp only [narrowStep, sortSearch, hstart, hend, hfilter]

/-! ### The narrowing loop of `Filter` -/

theorem take_succ_eq_iff {x rule : List String} {j : Nat} (hx : j < x.length)
    (hr : j < rule.length) :
    x.take (j + 1) = rule.take (j + 1) ↔
      x.take j = rule.take j ∧ x.getD j "" = rule.getD j "" := by
  rw [List.take_succ, List.take_succ, List.getElem?_eq_getElem hx,
    List.getElem?_eq_getElem hr]
  simp only [Option.toList_some]
  constructor
  · intro h
    rcases List.append_inj' h (by simp) with ⟨h1, h2⟩
    simp only [List.cons.injEq, and_true] at h2
    exact ⟨h1, by rw [List.getD_eq_getElem _ _ hx, List.getD_eq_getElem _ _ hr]; exact h2⟩
  · rintro ⟨h1, h2⟩
    rw [List.getD_eq_getElem _ _ hx, List.getD_eq_getElem _ _ hr] at h2
    rw [h1, h2]

theorem forall_getD_ne {l : List String} {n : Nat}
    (h : ∀ i, i < n → ¬ l.getD i "" = "") : ∀ s ∈ l.take n, s ≠ "" := by
  intro s hs
  rcases mem_take_idx "" hs with ⟨m, hm1, _, hm3⟩
  rw [← hm3]
  exact h m hm1

theorem forall_mem_ne {l : List String} (h : ∀ i, i < l.length → ¬ l.getD i "" = "") :
    ∀ s ∈ l, s ≠ "" := by
  intro s hs
  rcases List.mem_iff_getElem.mp hs with ⟨m, hm, he⟩
  have h2 := h m hm
  rw [List.getD_eq_getElem _ _ hm, he] at h2
  exact h2

theorem narrowLoop_spec (S : Policies) (w : Nat) (rule : List String)
    (hS : SortedLe S) (hw : Widths w S) (hr : rule.length ≤ w) :
    ∀ (rest : List String) (j : Nat) (q : Policies), rest = rule.drop j →
      j ≤ rule.length →
      (∀ i, i < j → ¬ rule.getD i "" = "") →
      q = S.filter (fun x => decide (x.take j = rule.take j)) →
      ∃ q1 k, narrowLoop q rest j = some (q1, k) ∧
        ((∃ jb, k = jb + 1 ∧ jb < rule.length ∧ rule.getD jb "" = "" ∧
            (∀ i, i < jb → ¬ rule.getD i "" = "") ∧
            q1 = S.filter (fun x => decide (x.take jb = rule.take jb))) ∨
          (rule.length ≤ k ∧ (∀ i, i < rule.length → ¬ rule.getD i "" = "") ∧
            q1 = S.filter (fun x => decide (x.take rule.length = rule.take rule.length)))) := by
  intro rest
  induction rest with
  | nil =>
    intro j q hrest hj hne hq
    have hjlen : j = rule.length := by
      rcases Nat.lt_or_ge j rule.length with h | h
      · rw [List.drop_eq_getElem_cons h] at hrest
        exact absurd hrest.symm (List.cons_ne_nil _ _)
      · omega
    subst hjlen
    exact ⟨q, rule.length + 1, rfl, Or.inr ⟨by omega, hne, hq⟩⟩
  | cons s rest2 ih =>
    intro j q hrest hj hne hq
    have hjlt : j < rule.length := by
      by_contra hc
      push_neg at hc
      rw [List.drop_eq_nil_of_le hc] at hrest
      exact List.noConfusion hrest
    have hdrop := List.drop_eq_getElem_cons hjlt
    rw [hdrop] at hrest
    injection hrest with hs1 hrest2
    have hsj : s = rule.getD j "" := by
      rw [List.getD_eq_getElem _ _ hjlt]
      exact hs1
    subst hq
    -- facts about the current slice
    have hqs : SortedLe (S.filter (fun x => decide (x.take j = rule.take j))) :=
      List.Pairwise.sublist (List.filter_sublist S) hS
    have hqw : Widths w (S.filter (fun x => decide (x.take j = rule.take j))) :=
      fun x hx => hw x ((List.filter_sublist S).subset hx)
    have hqpre : ∀ x ∈ S.filter (fun x => decide (x.take j = rule.take j)),
        ∀ y ∈ S.filter (fun x => decide (x.take j = rule.take j)),
        x.take j = y.take j := by
      intro x hx y hy
      have h1 := of_decide_eq_true (List.mem_filter.mp hx).2
      have h2 := of_decide_eq_true (List.mem_filter.mp hy).2
      rw [h1, h2]
    have hstep := narrowStep_spec (q := S.filter (fun x => decide (x.take j = rule.take j)))
      (j := j) (s := s) hqs hqw (lt_of_lt_of_le hjlt hr) hqpre
    have hq1eq : (S.filter (fun x => decide (x.take j = rule.take j))).filter
          (fun x => x.getD j "" == s) =
        S.filter (fun x => decide (x.take (j + 1) = rule.take (j + 1))) := by
      rw [List.filter_filter]
      refine List.filter_congr ?_
      intro x hx
      have hxj : j < x.length := by
        rw [hw x hx]
        exact lt_of_lt_of_le hjlt hr
      rw [Bool.eq_iff_iff]
      simp only [Bool.and_eq_true, beq_iff_eq, decide_eq_true_eq]
      rw [take_succ_eq_iff hxj hjlt]
      constructor
      · rintro ⟨h1, h2⟩
        exact ⟨h2, by rw [h1, hsj]⟩
      · rintro ⟨h1, h2⟩
        exact ⟨by rw [h2, ← hsj], h1⟩
    cases rest2 with
    | nil =>
      have hlen1 : j + 1 = rule.length := by
        rcases Nat.lt_or_ge (j + 1) rule.length with h | h
        · rw [List.drop_eq_getElem_cons h] at hrest2
          exact absurd hrest2 (List.cons_ne_nil _ _).symm
        · omega
      by_cases hse : s = ""
      · refine ⟨S.filter (fun x => decide (x.take j = rule.take j)), j + 1,
          by simp [narrowLoop, hse], Or.inl ⟨j, rfl, hjlt, by rw [← hsj]; exact hse, hne, rfl⟩⟩
      · refine ⟨S.filter (fun x => decide (x.take (j + 1) = rule.take (j + 1))), j + 1,
          ?_, Or.inr ⟨by omega, ?_, by rw [← hlen1]⟩⟩
        · simp only [narrowLoop, if_neg hse, hstep, hq1eq]
        · intro i hi
          rcases Nat.lt_or_ge i j with h | h
          · exact hne i h
          · have : i = j := by omega
            subst this
            rw [← hsj]
            exact hse
    | cons s1 rest3 =>
      by_cases hse : s = ""
      · refine ⟨S.filter (fun x => decide (x.take j = rule.take j)), j + 1,
          by simp [narrowLoop, hse], Or.inl ⟨j, rfl, hjlt, by rw [← hsj]; exact hse, hne, rfl⟩⟩
      · have hne1 : ∀ i, i < j + 1 → ¬ rule.getD i "" = "" := by
          intro i hi
          rcases Nat.lt_or_ge i j with h | h
          · exact hne i h
          · have : i = j := by omega
            subst this
            rw [← hsj]
            exact hse
        rcases ih (j + 1) (S.filter (fun x => decide (x.take (j + 1) = rule.take (j + 1))))
          hrest2 (by omega) hne1 rfl with ⟨q1, k, hloop, hdisj⟩
        refine ⟨q1, k, ?_, hdisj⟩
        simp only [narrowLoop, if_neg hse, hstep, hq1eq]
        exact hloop

/-! ### Full functional correctness of `Policies.Filter` -/

theorem matchesPattern_full {rule x : List String}
    (hne : ∀ i, i < rule.length → ¬ rule.getD i "" = "") (hlen : rule.length ≤ x.length) :
    matchesPattern rule x = true ↔ x.take rule.length = rule := by
  have h := matchesPattern_no_empty (forall_mem_ne hne) hlen
  exact h

theorem matchesPattern_split {rule x : List String} {jb : Nat}
    (hjb : jb < rule.length) (hempty : rule.getD jb "" = "")
    (hne : ∀ i, i < jb → ¬ rule.getD i "" = "") (hlen : rule.length ≤ x.length) :
    matchesPattern rule x = true ↔
      matchesPattern (rule.drop (jb + 1)) (x.drop (jb + 1)) = true ∧
        x.take jb = rule.take jb := by
  have hjb2 : rule[jb] = "" := by
    rw [List.getD_eq_getElem _ _ hjb] at hempty
    exact hempty
  have hsplit1 : rule = rule.take (jb + 1) ++ rule.drop (jb + 1) :=
    (List.take_append_drop _ _).symm
  have hlen1 : (rule.take (jb + 1)).length = jb + 1 := by
    rw [List.length_take]
    omega
  conv_lhs => rw [hsplit1]
  rw [matchesPattern_append, hlen1]
  have htake : rule.take (jb + 1) = rule.take jb ++ [""] := by
    rw [List.take_succ, List.getElem?_eq_getElem hjb, hjb2]
    rfl
  rw [htake, matchesPattern_append]
  have hlenjb : (rule.take jb).length = jb := by
    rw [List.length_take]
    omega
  rw [hlenjb]
  have hwild : matchesPattern [""] (x.drop jb) = true := by
    apply matchesPattern_single_wildcard
    intro hnil
    have h2 := congrArg List.length hnil
    rw [List.length_drop] at h2
    simp only [List.length_nil] at h2
    omega
  rw [hwild]
  have hpre : matchesPattern (rule.take jb) x = true ↔ x.take jb = rule.take jb := by
    have hjbx : (rule.take jb).length ≤ x.length := by
      rw [hlenjb]
      omega
    have h1 := matchesPattern_no_empty (forall_getD_ne hne) hjbx
    rw [hlenjb] at h1
    exact h1
  simp only [Bool.and_true, Bool.and_eq_true]
  rw [hpre]
  exact And.comm

theorem Filter_spec {S : Policies} {w : Nat} {rule : List String}
    (hS : SortedLe S) (hw : Widths w S) (hr : rule.length ≤ w) :
    Filter S rule = some (S.filter (matchesPattern rule)) := by
  have hinit : S = S.filter (fun x => decide (x.take 0 = rule.take 0)) := by
    have he : (fun x : Rule => decide (x.take 0 = rule.take 0)) = fun _ => true := by
      funext x
      simp
    rw [he, List.filter_true]
  rcases narrowLoop_spec S w rule hS hw hr rule 0 S (by rw [List.drop_zero]) (Nat.zero_le _)
    (fun i hi => absurd hi (Nat.not_lt_zero i)) hinit with ⟨q1, k, hloop, hdisj⟩
  simp only [Filter, hloop]
  rcases hdisj with ⟨jb, hk, hjb, hempty, hne, hq1⟩ | ⟨hk, hne, hq1⟩
  · subst hk
    have hbrute : ∀ x ∈ q1, bruteCheck x (jb + 1) (rule.drop (jb + 1)) =
        some (matchesPattern (rule.drop (jb + 1)) (x.drop (jb + 1))) := by
      intro x hx
      have hxS : x ∈ S := by
        rw [hq1] at hx
        exact (List.filter_sublist S).subset hx
      refine bruteCheck_eq x _ (jb + 1) ?_
      rw [List.length_drop, hw x hxS]
      omega
    have hfin : q1.filter (fun x => matchesPattern (rule.drop (jb + 1)) (x.drop (jb + 1))) =
        S.filter (matchesPattern rule) := by
      rw [hq1, List.filter_filter]
      refine (List.filter_congr ?_).symm
      intro x hx
      have hxw : x.length = w := hw x hx
      rw [Bool.eq_iff_iff]
      simp only [Bool.and_eq_true, decide_eq_true_eq]
      rw [matchesPattern_split hjb hempty hne (by omega)]
    by_cases hq0 : q1.length = 0
    · rw [if_pos hq0]
      rw [List.length_eq_zero] at hq0
      rw [← hfin, hq0]
      simp
    · rw [if_neg hq0]
      rw [bruteFilter_eq (jb + 1) (rule.drop (jb + 1))
        (fun x => matchesPattern (rule.drop (jb + 1)) (x.drop (jb + 1))) q1 hbrute, hfin]
  · have hfin : q1 = S.filter (matchesPattern rule) := by
      rw [hq1, List.take_length]
      refine (List.filter_congr ?_).symm
      intro x hx
      rw [Bool.eq_iff_iff]
      simp only [decide_eq_true_eq]
      exact matchesPattern_full hne (by rw [hw x hx]; omega)
    by_cases hq0 : q1.length = 0
    · rw [if_pos hq0]
      rw [List.length_eq_zero] at hq0
      rw [← hfin, hq0]
    · rw [if_neg hq0]
      rw [List.drop_eq_nil_of_le hk]
      rw [bruteFilter_eq k [] (fun _ => true) q1 (fun x _ => rfl), List.filter_true, hfin]

/-- A pattern whose first position is the wildcard skips the binary-search
narrowing entirely; only the widths of the stored rules matter. -/
theorem Filter_wildcard_head {q : Policies} {rest : List String}
    (hlen : ∀ x ∈ q, rest.length + 1 ≤ x.length) :
    Filter q ("" :: rest) = some (q.filter fun x => matchesPattern rest (x.drop 1)) := by
  have hloop : narrowLoop q ("" :: rest) 0 = some (q, 1) := by
    cases rest with
    | nil => simp [narrowLoop]
    | cons a l => simp [narrowLoop]
  simp only [Filter, hloop]
  by_cases hq : q.length = 0
  · rw [if_pos hq]
    rw [List.length_eq_zero] at hq
    subst hq
    simp
  · rw [if_neg hq]
    have hd : ("" :: rest).drop 1 = rest := by simp
    rw [hd]
    refine bruteFilter_eq 1 rest _ q ?_
    intro x hx
    refine bruteCheck_eq x rest 1 ?_
    have := hlen x hx
    omega

/-! ### Totality of the guarded operations under the length preconditions -/

theorem lessAux_total : ∀ {a b : List String}, a.length ≤ b.length →
    ∃ t, lessAux a b = some t
  | [], _, _ => ⟨false, rfl⟩
  | _ :: _, [], h => by simp at h
  | a :: as, b :: bs, h => by
    simp only [lessAux]
    split_ifs
    · exact ⟨true, rfl⟩
    · exact ⟨false, rfl⟩
    · exact lessAux_total (by simpa using h)

theorem idx2_some {l : Policies} {m j : Nat} (hm : m < l.length) (hjl : j < l[m].length) :
    idx2 l m j = some l[m][j] := by
  simp only [idx2]
  rw [List.getElem?_eq_getElem hm]
  simp only
  rw [List.getElem?_eq_getElem hjl]

theorem narrowStep_total {q : Policies} {j : Nat} {s : String}
    (hj : ∀ x ∈ q, j < x.length) :
    ∃ q2, narrowStep q j s = some q2 ∧ ∀ x ∈ q2, x ∈ q := by
  have hf1 : ∀ m, 0 ≤ m → m < q.length →
      ((idx2 q m j).map fun v => !goStrLt v s).isSome = true := by
    intro m _ hm
    rw [idx2_some hm (hj _ (List.getElem_mem hm))]
    rfl
  rcases sortSearchGo_some (fun i => (idx2 q i j).map fun v => !goStrLt v s)
      q.length 0 q.length (Nat.zero_le _) (by omega) hf1 with ⟨start, hstart, _, _⟩
  have hj1 : ∀ x ∈ q.drop start, j < x.length :=
    fun x hx => hj x (List.drop_subset start q hx)
  have hf2 : ∀ m, 0 ≤ m → m < (q.drop start).length →
      ((idx2 (q.drop start) m j).map fun v => goStrLt s v).isSome = true := by
    intro m _ hm
    rw [idx2_some hm (hj1 _ (List.getElem_mem hm))]
    rfl
  rcases sortSearchGo_some (fun i => (idx2 (q.drop start) i j).map fun v => goStrLt s v)
      (q.drop start).length 0 (q.drop start).length (Nat.zero_le _) (by omega) hf2 with
    ⟨e, hend, _, _⟩
  refine ⟨(q.drop start).take e, by simp only [narrowStep, sortSearch, hstart, hend], ?_⟩
  intro x hx
  exact List.drop_subset start q (List.take_subset e (q.drop start) hx)

theorem narrowLoop_total : ∀ (rest : List String) (j : Nat) (q : Policies),
    (∀ x ∈ q, j + rest.length ≤ x.length) →
    ∃ q1 k, narrowLoop q rest j = some (q1, k) ∧ ∀ x ∈ q1, x ∈ q := by
  intro rest
  induction rest with
  | nil =>
    intro j q _
    exact ⟨q, j + 1, rfl, fun x hx => hx⟩
  | cons s rest2 ih =>
    intro j q hq
    have hj : ∀ x ∈ q, j < x.length := by
      intro x hx
      have := hq x hx
      simp only [List.length_cons] at this
      omega
    cases rest2 with
    | nil =>
      by_cases hse : s = ""
      · exact ⟨q, j + 1, by simp [narrowLoop, hse], fun x hx => hx⟩
      · rcases narrowStep_total (s := s) hj with ⟨q2, hq2, hq2sub⟩
        exact ⟨q2, j + 1, by simp [narrowLoop, hse, hq2], hq2sub⟩
    | cons s1 rest3 =>
      by_cases hse : s = ""
      · exact ⟨q, j + 1, by simp [narrowLoop, hse], fun x hx => hx⟩
      · rcases narrowStep_total (s := s) hj with ⟨q2, hq2, hq2sub⟩
        have hq2len : ∀ x ∈ q2, j + 1 + (s1 :: rest3).length ≤ x.length := by
          intro x hx
          have := hq x (hq2sub x hx)
          simp only [List.length_cons] at this ⊢
          omega
        rcases ih (j + 1) q2 hq2len with ⟨q1, k, hloop, hsub⟩
        refine ⟨q1, k, ?_, fun x hx => hq2sub _ (hsub x hx)⟩
        simp only [narrowLoop, if_neg hse, hq2]
        exact hloop

theorem Filter_total {p : Policies} {rule : List String}
    (hlen : ∀ x ∈ p, rule.length ≤ x.length) :
    ∃ res, Filter p rule = some res := by
  rcases narrowLoop_total rule 0 p (fun x hx => by have := hlen x hx; omega) with
    ⟨q1, k, hloop, hsub⟩
  simp only [Filter, hloop]
  by_cases hq0 : q1.length = 0
  · exact ⟨[], by rw [if_pos hq0]⟩
  · rw [if_neg hq0]
    by_cases hk : rule.length ≤ k
    · rw [List.drop_eq_nil_of_le hk]
      exact ⟨_, bruteFilter_eq k [] (fun _ => true) q1 (fun x _ => rfl)⟩
    · push_neg at hk
      refine ⟨_, bruteFilter_eq k (rule.drop k)
        (fun x => matchesPattern (rule.drop k) (x.drop k)) q1 ?_⟩
      intro x hx
      refine bruteCheck_eq x _ k ?_
      rw [List.length_drop]
      have := hlen x (hsub x hx)
      omega

theorem Insert_total {p : Policies} {rule : Rule}
    (hlen : ∀ x ∈ p, rule.length ≤ x.length) :
    ∃ q, Insert p rule = some q := by
  rcases search_total hlen with ⟨i, hi, _⟩
  by_cases hilt : i < p.length
  · by_cases heq : stringSliceEqual p[i] rule = true
    · exact ⟨p, by simp [Insert, hi, dif_pos hilt, heq]⟩
    · exact ⟨p.take i ++ rule :: p.drop i, by simp [Insert, hi, dif_pos hilt, heq]⟩
  · exact ⟨p ++ [rule], by simp [Insert, hi, dif_neg hilt]⟩

theorem Find_total {p : Policies} {rule : Rule}
    (hlen : ∀ x ∈ p, rule.length ≤ x.length) :
    ∃ r, Find p rule = some r := by
  rcases search_total hlen with ⟨i, hi, _⟩
  by_cases hilt : i < p.length
  · have hxl : rule.length ≤ p[i].length := hlen _ (List.getElem_mem hilt)
    by_cases heq : stringSliceEqual (p[i].take rule.length) rule = true
    · exact ⟨some p[i], by simp [Find, hi, dif_pos hilt, hxl, heq]⟩
    · exact ⟨none, by simp [Find, hi, dif_pos hilt, hxl, heq]⟩
  · exact ⟨none, by simp [Find, hi, dif_neg hilt]⟩

/-! ### `Manager.FilterWithGroups` -/

theorem filterWithGroupsLoop_eq (P : Policies) (pvi gvi : Nat) :
    ∀ (gs : Policies) (acc : Policies),
      filterWithGroupsLoop P pvi gvi acc gs =
        match specFWGList P pvi gvi gs with
        | none => none
        | some l => some (acc ++ l)
  | [], acc => by simp [filterWithGroupsLoop, specFWGList]
  | g :: gs, acc => by
    simp only [filterWithGroupsLoop, specFWGList]
    cases hgv : g[gvi]? with
    | none => rfl
    | some v =>
      cases hfil : Tulip.Filter P (List.replicate pvi "" ++ [v]) with
      | none => simp [hfil]
      | some f =>
        simp only [hfil]
        rw [filterWithGroupsLoop_eq P pvi gvi gs (acc ++ f)]
        cases specFWGList P pvi gvi gs with
        | none => rfl
        | some r => simp [List.append_assoc]

theorem FilterWithGroups_eq_spec (m : Manager) (pvi : Nat) (groups : Policies) (gvi : Nat) :
    m.FilterWithGroups pvi groups gvi = specFilterWithGroups m.p pvi groups gvi := by
  cases groups with
  | nil => simp [Manager.FilterWithGroups, specFilterWithGroups, specFWGList]
  | cons g gs =>
    simp only [Manager.FilterWithGroups, specFilterWithGroups]
    rw [if_neg (by simp)]
    rw [filterWithGroupsLoop_eq]
    cases specFWGList m.p pvi gvi (g :: gs) with
    | none => rfl
    | some l => simp

theorem fwgLoop_filter {P : Policies} {w : Nat} (hs : SortedLe P) (hw : Widths w P)
    (hw1 : 1 ≤ w) :
    ∀ (gs : Policies), (∀ g ∈ gs, 1 < g.length) → ∀ acc : Policies,
      filterWithGroupsLoop P 0 1 acc gs =
        some (acc ++ (gs.map fun g => P.filter (matchesPattern [g.getD 1 ""])).flatten)
  | [], _, acc => by simp [filterWithGroupsLoop]
  | g :: gs, hg, acc => by
    have hg1 : 1 < g.length := hg g (List.mem_cons_self g gs)
    have hgd : g.getD 1 "" = g[1] := List.getD_eq_getElem g "" hg1
    simp only [filterWithGroupsLoop]
    rw [List.getElem?_eq_getElem hg1]
    simp only
    have hfil : Tulip.Filter P (List.replicate 0 "" ++ [g[1]]) =
        some (P.filter (matchesPattern [g[1]])) := by
      have h0 : List.replicate 0 "" ++ [g[1]] = [g[1]] := rfl
      rw [h0]
      exact Filter_spec hs hw (by simp [hw1])
    rw [hfil]
    simp only
    rw [fwgLoop_filter hs hw hw1 gs (fun g2 hg2 => hg g2 (List.mem_cons_of_mem g hg2))
      (acc ++ P.filter (matchesPattern [g[1]]))]
    rw [List.map_cons, List.flatten_cons, hgd]
    simp [List.append_assoc]

/-! ### The `RBACWithDomain` decision -/

theorem matchesPattern_cons_wildcard {rest x : List String} (hx : x ≠ []) :
    matchesPattern ("" :: rest) x = matchesPattern rest (x.drop 1) := by
  cases x with
  | nil => exact absurd rfl hx
  | cons v vs => simp [matchesPattern]

theorem RBAC_spec {P G : Policies} {sub dom obj act : String}
    (hP : SortedLe P) (hG : SortedLe G) (hwP : Widths 6 P) (hwG : Widths 6 G) :
    RBACWithDomain ⟨P, G⟩ [sub, dom, obj, act] = some (rbacSpec P G sub dom obj act) := by
  have hlenP : ∀ x ∈ P, (List.length [sub, dom, obj, act]) ≤ x.length := by
    intro x hx
    rw [hwP x hx]
    simp
  simp only [RBACWithDomain, List.getElem?_cons_zero, List.getElem?_cons_succ]
  have hfe : Manager.FindExact ⟨P, G⟩ [sub, dom, obj, act] = Find P [sub, dom, obj, act] := rfl
  rcases Find_spec hP hlenP with ⟨x, hfind, hxP, hxtake⟩ | ⟨hfind, hnone⟩
  · rw [hfe]
    simp only [hfind]
    have hany : (P.any fun p => p.take 4 == [sub, dom, obj, act]) = true := by
      rw [List.any_eq_true]
      refine ⟨x, hxP, beq_iff_eq.mpr ?_⟩
      simpa using hxtake
    rw [rbacSpec, hany, Bool.true_or]
  · rw [hfe]
    simp only [hfind]
    have hany1 : (P.any fun p => p.take 4 == [sub, dom, obj, act]) = false := by
      rw [List.any_eq_false]
      intro p hp
      simp only [beq_iff_eq]
      have := hnone p hp
      simpa using this
    -- the grouping rules matched by (sub, _, dom)
    have hgs : Manager.FilterGroups ⟨P, G⟩ [sub, "", dom] =
        some (G.filter (matchesPattern [sub, "", dom])) := by
      show Tulip.Filter G [sub, "", dom] = _
      exact Filter_spec hG hwG (by simp)
    simp only [hgs]
    set gs := G.filter (matchesPattern [sub, "", dom]) with hgsdef
    have hgsG : ∀ g ∈ gs, g ∈ G := fun g hg => (List.filter_sublist G).subset hg
    have hgs6 : ∀ g ∈ gs, 1 < g.length := by
      intro g hg
      rw [hwG g (hgsG g hg)]
      omega
    -- the concatenated base-policy candidates
    set pol := (gs.map fun g => P.filter (matchesPattern [g.getD 1 ""])).flatten with hpoldef
    have hfwg : Manager.FilterWithGroups ⟨P, G⟩ 0 gs 1 = some pol := by
      by_cases h0 : gs.length = 0
      · rw [Manager.FilterWithGroups, if_pos h0]
        rw [List.length_eq_zero] at h0
        rw [hpoldef, h0]
        rfl
      · rw [Manager.FilterWithGroups, if_neg h0]
        have h1 := fwgLoop_filter hP hwP (by omega) gs hgs6 []
        rwa [List.nil_append] at h1
    simp only [hfwg]
    have hpolP : ∀ x ∈ pol, x ∈ P := by
      intro x hx
      rw [hpoldef] at hx
      rcases List.mem_flatten.mp hx with ⟨l, hl, hxl⟩
      rcases List.mem_map.mp hl with ⟨g, _, hgl⟩
      rw [← hgl] at hxl
      exact (List.filter_sublist P).subset hxl
    -- the claimed second disjunct is membership in the filtered candidates
    have hiff : ((G.any fun g =>
          matchesPattern [sub, "", dom] g &&
            (P.any fun p =>
              matchesPattern [g.getD 1 ""] p && matchesPattern ["", dom, obj, act] p)) = true) ↔
        ∃ x, x ∈ pol ∧ matchesPattern [dom, obj, act] (x.drop 1) = true := by
      constructor
      · intro h
        rcases List.any_eq_true.mp h with ⟨g, hgG, hgand⟩
        rw [Bool.and_eq_true] at hgand
        obtain ⟨hg1, hg2⟩ := hgand
        rcases List.any_eq_true.mp hg2 with ⟨p, hpP, hpand⟩
        rw [Bool.and_eq_true] at hpand
        obtain ⟨hp1, hp2⟩ := hpand
        have hpnil : p ≠ [] := by
          intro he
          have := hwP p hpP
          rw [he] at this
          simp at this
        refine ⟨p, ?_, by rwa [matchesPattern_cons_wildcard hpnil] at hp2⟩
        rw [hpoldef]
        rw [List.mem_flatten]
        refine ⟨P.filter (matchesPattern [g.getD 1 ""]), ?_, ?_⟩
        · rw [List.mem_map]
          exact ⟨g, List.mem_filter.mpr ⟨hgG, hg1⟩, rfl⟩
        · exact List.mem_filter.mpr ⟨hpP, hp1⟩
      · rintro ⟨p, hppol, hp2⟩
        have hpP := hpolP p hppol
        rw [hpoldef, List.mem_flatten] at hppol
        rcases hppol with ⟨l, hl, hpl⟩
        rcases List.mem_map.mp hl with ⟨g, hggs, hgl⟩
        rw [← hgl] at hpl
        have hgmem := List.mem_filter.mp hggs
        rw [List.any_eq_true]
        refine ⟨g, hgmem.1, ?_⟩
        rw [Bool.and_eq_true]
        refine ⟨hgmem.2, ?_⟩
        rw [List.any_eq_true]
        refine ⟨p, hpP, ?_⟩
        rw [Bool.and_eq_true]
        refine ⟨(List.mem_filter.mp hpl).2, ?_⟩
        have hpnil : p ≠ [] := by
          intro he
          have := hwP p hpP
          rw [he] at this
          simp at this
        rwa [matchesPattern_cons_wildcard hpnil]
    by_cases hpol0 : pol.length = 0
    · rw [if_pos hpol0]
      have hsecond : (G.any fun g =>
          matchesPattern [sub, "", dom] g &&
            (P.any fun p =>
              matchesPattern [g.getD 1 ""] p && matchesPattern ["", dom, obj, act] p)) = false := by
        cases hsec : (G.any fun g =>
            matchesPattern [sub, "", dom] g &&
              (P.any fun p =>
                matchesPattern [g.getD 1 ""] p && matchesPattern ["", dom, obj, act] p)) with
        | false => rfl
        | true =>
          rcases hiff.mp hsec with ⟨x, hx, _⟩
          rw [List.length_eq_zero] at hpol0
          rw [hpol0] at hx
          exact absurd hx (List.not_mem_nil x)
      rw [rbacSpec, hany1, hsecond]
      rfl
    · rw [if_neg hpol0]
      have hfilpol : Tulip.Filter pol ["", dom, obj, act] =
          some (pol.filter fun x => matchesPattern [dom, obj, act] (x.drop 1)) := by
        refine Filter_wildcard_head ?_
        intro x hx
        rw [hwP x (hpolP x hx)]
        simp
      simp only [hfilpol, Option.some.injEq]
      rw [rbacSpec, hany1, Bool.false_or]
      rw [Bool.eq_iff_iff, decide_eq_true_eq]
      rw [List.length_pos_iff_exists_mem]
      constructor
      · rintro ⟨x, hx⟩
        have h2 := List.mem_filter.mp hx
        exact hiff.mpr ⟨x, h2.1, h2.2⟩
      · intro h
        rcases hiff.mp h with ⟨x, hx1, hx2⟩
        exact ⟨x, List.mem_filter.mpr ⟨hx1, hx2⟩⟩

/-! ### The write path: `policyID` and `policyArgs` -/

theorem take_findIdx_eq_takeWhile : ∀ l : List String,
    l.take (l.findIdx fun s => s == "") = l.takeWhile fun s => !(s == "")
  | [] => rfl
  | a :: l => by
    rw [List.findIdx_cons, List.takeWhile_cons]
    by_cases ha : (a == "") = true
    · simp [ha]
    · have ha2 : (a == "") = false := by
        cases h : (a == "") with
        | false => rfl
        | true => exact absurd h ha
      simp [ha2, take_findIdx_eq_takeWhile l]

theorem takeWhile_eq_nil_of_rte_nil : ∀ {l : List String},
    removeTrailingEmpties l = [] → (l.takeWhile fun s => !(s == "")) = []
  | [], _ => rfl
  | a :: l, h => by
    simp only [removeTrailingEmpties] at h
    cases hm : removeTrailingEmpties l with
    | nil =>
      rw [hm] at h
      by_cases ha : a = ""
      · rw [List.takeWhile_cons]
        simp [ha]
      · rw [if_neg ha] at h
        exact List.noConfusion h
    | cons b r2 =>
      rw [hm] at h
      exact List.noConfusion h

theorem takeWhile_removeTrailing : ∀ l : List String,
    ((removeTrailingEmpties l).takeWhile fun s => !(s == "")) =
      l.takeWhile fun s => !(s == "")
  | [] => rfl
  | a :: l => by
    simp only [removeTrailingEmpties]
    cases hm : removeTrailingEmpties l with
    | nil =>
      by_cases ha : a = ""
      · rw [if_pos ha, List.takeWhile_cons]
        simp [ha]
      · rw [if_neg ha, List.takeWhile_cons, List.takeWhile_cons]
        simp [ha, takeWhile_eq_nil_of_rte_nil hm]
    | cons b r2 =>
      have hih := takeWhile_removeTrailing l
      rw [hm] at hih
      by_cases ha : (a == "") = true
      · simp [List.takeWhile_cons, ha]
      · rw [show List.takeWhile (fun s => !(s == "")) (a :: b :: r2) =
            a :: List.takeWhile (fun s => !(s == "")) (b :: r2) from by
          simp [List.takeWhile_cons, ha]]
        rw [hih]
        simp [List.takeWhile_cons, ha]

theorem policyID_eq_takeWhile (c : String → Nat) (pt : String) (rule : List String) :
    policyID c pt rule =
      String.mk (Nat.toDigits 16 (c (String.intercalate ","
        (pt :: rule.takeWhile fun s => !(s == ""))))) := by
  rw [policyID, take_findIdx_eq_takeWhile]

theorem policyID_trailing (c : String → Nat) (pt : String) (rule : List String) :
    policyID c pt rule = policyID c pt (removeTrailingEmpties rule) := by
  rw [policyID_eq_takeWhile, policyID_eq_takeWhile, takeWhile_removeTrailing]

theorem policyColsLoop_none (rule : List String) : ∀ (n i : Nat),
    (policyColsLoop rule i n = none ↔
      ∃ k, i ≤ k ∧ k < i + n ∧ k < rule.length ∧ rule.getD k "" = "")
  | 0, i => by
    simp only [policyColsLoop]
    constructor
    · intro h
      exact Option.noConfusion h
    · rintro ⟨k, h1, h2, _, _⟩
      omega
  | n + 1, i => by
    have ih := policyColsLoop_none rule n (i + 1)
    simp only [policyColsLoop]
    by_cases hi : i < rule.length
    · rw [if_pos hi]
      by_cases he : rule.getD i "" = ""
      · rw [if_pos he]
        exact ⟨fun _ => ⟨i, le_refl i, by omega, hi, he⟩, fun _ => rfl⟩
      · rw [if_neg he]
        cases hrec : policyColsLoop rule (i + 1) n with
        | none =>
          rw [hrec] at ih
          simp only [true_iff] at ih
          rcases ih with ⟨k, h1, h2, h3, h4⟩
          exact ⟨fun _ => ⟨k, by omega, by omega, h3, h4⟩, fun _ => rfl⟩
        | some r =>
          rw [hrec] at ih
          constructor
          · intro h
            exact Option.noConfusion h
          · rintro ⟨k, h1, h2, h3, h4⟩
            have hk : i + 1 ≤ k := by
              rcases Nat.lt_or_ge i k with h | h
              · omega
              · have hki : k = i := by omega
                subst hki
                exact absurd h4 he
            exact Option.noConfusion (ih.symm.mp ⟨k, hk, by omega, h3, h4⟩)
    · rw [if_neg hi]
      cases hrec : policyColsLoop rule (i + 1) n with
      | none =>
        rw [hrec] at ih
        simp only [true_iff] at ih
        rcases ih with ⟨k, h1, h2, h3, h4⟩
        exact ⟨fun _ => ⟨k, by omega, by omega, h3, h4⟩, fun _ => rfl⟩
      | some r =>
        rw [hrec] at ih
        constructor
        · intro h
          exact Option.noConfusion h
        · rintro ⟨k, h1, h2, h3, h4⟩
          have hk : i + 1 ≤ k := by omega
          exact Option.noConfusion (ih.symm.mp ⟨k, hk, by omega, h3, h4⟩)

theorem policyArgs_none_iff (c : String → Nat) (pt : String) (rule : List String) :
    policyArgs c pt rule = none ↔
      ∃ k, k < rule.length ∧ k < 6 ∧ rule.getD k "" = "" := by
  simp only [policyArgs]
  cases hcols : policyColsLoop rule 0 6 with
  | none =>
    have h := (policyColsLoop_none rule 6 0).mp hcols
    rcases h with ⟨k, _, h2, h3, h4⟩
    exact ⟨fun _ => ⟨k, h3, by omega, h4⟩, fun _ => rfl⟩
  | some cols =>
    constructor
    · intro h
      exact Option.noConfusion h
    · rintro ⟨k, h1, h2, h3⟩
      have : policyColsLoop rule 0 6 = none :=
        (policyColsLoop_none rule 6 0).mpr ⟨k, Nat.zero_le k, by omega, h1, h3⟩
      rw [hcols] at this
      exact Option.noConfusion this

/-! ### Invariant preservation over mutation sequences -/

theorem applyOps_invariant {w : Nat} : ∀ (ops : List Op) (p : Policies),
    SortedLt p → Widths w p → (∀ op ∈ ops, op.rule.length = w) →
    ∃ q, applyOps p ops = some q ∧ SortedLt q ∧ Widths w q
  | [], p, h1, h2, _ => ⟨p, rfl, h1, h2⟩
  | op :: ops, p, h1, h2, h3 => by
    have hle : SortedLe p := List.Pairwise.imp (fun h => h.1) h1
    cases op with
    | insert r =>
      have hr : r.length = w := h3 (.insert r) (List.mem_cons_self _ _)
      rcases Insert_spec hle h2 hr with ⟨q, hq, _, hqw, _, hstrict⟩
      rcases applyOps_invariant ops q (hstrict h1) hqw
        (fun o ho => h3 o (List.mem_cons_of_mem _ ho)) with ⟨q2, hq2, hs2, hw2⟩
      refine ⟨q2, ?_, hs2, hw2⟩
      simp only [applyOps, applyOp, hq]
      exact hq2
    | remove r =>
      have hr : r.length = w := h3 (.remove r) (List.mem_cons_self _ _)
      have hlen : ∀ x ∈ p, r.length ≤ x.length := fun x hx => by rw [hr, h2 x hx]
      rcases Remove_sublist hlen with ⟨q, hq, hsub⟩
      have hq1 : SortedLt q := List.Pairwise.sublist hsub h1
      have hqw : Widths w q := fun x hx => h2 x (hsub.subset hx)
      rcases applyOps_invariant ops q hq1 hqw
        (fun o ho => h3 o (List.mem_cons_of_mem _ ho)) with ⟨q2, hq2, hs2, hw2⟩
      refine ⟨q2, ?_, hs2, hw2⟩
      simp only [applyOps, applyOp, hq]
      exact hq2

/-! ### Claim theorems -/

/-- Claim C1 (counterexample): the claim as stated is false.  On the cache
`P = [[r,d,o,a,"",""]]`, `G = [[x,r,d,"","",""]]` and the request
`(sub,dom,obj,act) = ("",d,o,a)`, `RBACWithDomain` returns true, yet the
claimed condition — `P` contains a rule whose first four positions equal
the request, or some `g ∈ G` has `g[0] = sub`, `g[2] = dom` and some
`p ∈ P` has `p[0] = g[1]`, `p[1] = dom`, `p[2] = obj`, `p[3] = act` — is
false: the empty `sub` acts as a wildcard in `G.Filter(sub, "", dom)`, so
the grouping rule with `g[0] = "x" ≠ ""` still matches. -/
theorem claim_C1_counterexample :
    RBACWithDomain ⟨[["r", "d", "o", "a", "", ""]], [["x", "r", "d", "", "", ""]]⟩
        ["", "d", "o", "a"] = some true ∧
      (([["r", "d", "o", "a", "", ""]] : Policies).any
          (fun p => p.take 4 == ["", "d", "o", "a"]) ||
        ([["x", "r", "d", "", "", ""]] : Policies).any
          (fun g => g.getD 0 "" == "" && g.getD 2 "" == "d" &&
            ([["r", "d", "o", "a", "", ""]] : Policies).any
              (fun p => p.getD 0 "" == g.getD 1 "" && p.getD 1 "" == "d" &&
                p.getD 2 "" == "o" && p.getD 3 "" == "a"))) = false := by
  constructor
  · decide
  · decide

/-- Claim C1 (amended): for every sorted cache `(P, G)` of width-6 rules and
every 4-position request, `Enforce` with the `RBACWithDomain` matcher
returns exactly `rbacSpec`: a rule of `P` whose first four positions equal
`(sub, dom, obj, act)`, or a pair `g ∈ G`, `p ∈ P` with `g` matching the
pattern `(sub, ·, dom)`, `p[0]` matching `g[1]` and `p` matching
`(·, dom, obj, act)` — where matching against an empty string is a wildcard
that always succeeds.  When `sub`, `dom`, `obj`, `act` and all role values
`g[1]` are non-empty, this coincides with the equalities of the original
claim. -/
theorem claim_C1_amended {P G : Policies} {sub dom obj act : String}
    (hP : SortedLe P) (hG : SortedLe G) (hwP : Widths 6 P) (hwG : Widths 6 G) :
    Enforce ⟨P, G⟩ [sub, dom, obj, act] = some (rbacSpec P G sub dom obj act) :=
  RBAC_spec hP hG hwP hwG

/-- Claim C1 (witness): the amended theorem applied to a concrete cache
implementing the spec's scenario D. -/
theorem claim_C1_witness :
    Enforce ⟨[["teacher", "uni", "class_a", "teach", "", ""]],
        [["aaron", "teacher", "uni", "", "", ""]]⟩
        ["aaron", "uni", "class_a", "teach"] =
      some (rbacSpec [["teacher", "uni", "class_a", "teach", "", ""]]
        [["aaron", "teacher", "uni", "", "", ""]] "aaron" "uni" "class_a" "teach") :=
  claim_C1_amended (by decide) (by decide) (by decide) (by decide)

/-- Claim C2: on a sorted fixed-width rule set, `Filter` returns exactly the
rules matching the pattern (empty pattern positions are wildcards,
positions beyond the pattern are unconstrained), in sorted order as a
subsequence of the set — i.e. exactly `S.filter (matchesPattern pattern)`. -/
theorem claim_C2 {S : Policies} {w : Nat} {pattern : List String}
    (hs : SortedLe S) (hw : Widths w S) (hp : pattern.length ≤ w) :
    Filter S pattern = some (S.filter (matchesPattern pattern)) ∧
      (S.filter (matchesPattern pattern)).Sublist S :=
  ⟨Filter_spec hs hw hp, List.filter_sublist S⟩

/-- Claim C2 (witness): the theorem applied to the spec's scenario C set. -/
theorem claim_C2_witness :
    Filter [["a", "b", "c"], ["a", "d", "f"], ["a", "f", "g"], ["b", "e", "g"],
        ["b", "h", "i"], ["b", "n", "j"]] ["", "", "g"] =
        some ([["a", "b", "c"], ["a", "d", "f"], ["a", "f", "g"], ["b", "e", "g"],
          ["b", "h", "i"], ["b", "n", "j"]].filter (matchesPattern ["", "", "g"])) ∧
      ([["a", "b", "c"], ["a", "d", "f"], ["a", "f", "g"], ["b", "e", "g"],
        ["b", "h", "i"], ["b", "n", "j"]].filter (matchesPattern ["", "", "g"])).Sublist
        [["a", "b", "c"], ["a", "d", "f"], ["a", "f", "g"], ["b", "e", "g"],
          ["b", "h", "i"], ["b", "n", "j"]] :=
  claim_C2 (w := 3) (by decide) (by decide) (by decide)

/-- Claim C3: starting from the empty rule set, any finite sequence of
`Insert` and `Remove` of width-`w` rules leaves a stored sequence that is
lexicographically sorted (each adjacent pair `a, b` has `a ≤ b` by
position-wise string comparison) and free of duplicates. -/
theorem claim_C3 {w : Nat} (ops : List Op) (hw : ∀ op ∈ ops, op.rule.length = w) :
    ∃ q, applyOps [] ops = some q ∧
      List.Chain' (fun a b => lexLeB a b = true) q ∧ q.Nodup := by
  rcases applyOps_invariant ops [] List.Pairwise.nil
    (fun x hx => absurd hx (List.not_mem_nil x)) hw with ⟨q, hq, hs, _⟩
  exact ⟨q, hq, (List.Pairwise.imp (fun h => h.1) hs).chain',
    List.Pairwise.imp (fun h => h.2) hs⟩

/-- Claim C3 (witness): the theorem applied to a concrete mutation
sequence. -/
theorem claim_C3_witness :
    ∃ q, applyOps [] [Op.insert ["b", "x"], Op.insert ["a", "y"], Op.insert ["a", "y"],
        Op.remove ["b", "x"]] = some q ∧
      List.Chain' (fun a b => lexLeB a b = true) q ∧ q.Nodup :=
  claim_C3 (w := 2) _ (by decide)

/-- Claim C4 (counterexample): the claim as stated is false.  The rule
`["a", ""]` has its only empty string in trailing position (after its last
non-empty position), so by the claim it should be accepted — yet
`policyArgs` panics on it, because the loop rejects an empty string at any
present position, trailing included. -/
theorem claim_C4_counterexample : policyArgs (fun _ => 0) "p" ["a", ""] = none := by
  rfl

/-- Claim C4 (amended): the write path (`AddPolicy` and the batch variants,
via `policyArgs`) fails fatally — panics — if and only if the supplied rule
contains an empty string at one of its first `min(length, 6)` positions;
a rule whose first `min(length, 6)` positions are all non-empty is accepted
and issued to storage (positions beyond the sixth are ignored). -/
theorem claim_C4_amended (c : String → Nat) (pt : String) (rule : List String) :
    policyArgs c pt rule = none ↔
      ∃ k, k < rule.length ∧ k < 6 ∧ rule.getD k "" = "" :=
  policyArgs_none_iff c pt rule

/-- Claim C5: `policyID` is deterministic, ignores trailing empty
positions, and is the lowercase hex digest of `ptype` joined with the
rule's non-empty prefix by the separator `","`. -/
theorem claim_C5 (c : String → Nat) (pt : String) (rule : List String) :
    (∀ (pt2 : String) (rule2 : List String), pt2 = pt → rule2 = rule →
        policyID c pt2 rule2 = policyID c pt rule) ∧
      policyID c pt rule = policyID c pt (removeTrailingEmpties rule) ∧
      policyID c pt rule = String.mk (Nat.toDigits 16 (c (String.intercalate ","
        (pt :: rule.takeWhile fun s => !(s == ""))))) :=
  ⟨fun _ _ h1 h2 => by rw [h1, h2], policyID_trailing c pt rule,
    policyID_eq_takeWhile c pt rule⟩

/-- Claim C5 (witness): determinism of the id applied at a concrete input,
discharging the equality hypotheses. -/
theorem claim_C5_witness :
    policyID (fun s => s.length) "p" ["a", "b"] = policyID (fun s => s.length) "p" ["a", "b"] :=
  (claim_C5 (fun s => s.length) "p" ["a", "b"]).1 "p" ["a", "b"] rfl rfl

/-- Claim C6: `Insert` is idempotent on a rule set satisfying the RuleSet
invariants — inserting the same fixed-width rule twice produces the same
set as inserting it once. -/
theorem claim_C6 {S : Policies} {w : Nat} {r : Rule}
    (hs : SortedLe S) (hw : Widths w S) (hr : r.length = w) :
    ∃ S1, Insert S r = some S1 ∧ Insert S1 r = some S1 := by
  rcases Insert_spec hs hw hr with ⟨S1, h1, hs1, hw1, hmem, _⟩
  exact ⟨S1, h1, Insert_noop hs1 hw1 hr hmem⟩

/-- Claim C6 (witness): idempotence at a concrete set and rule. -/
theorem claim_C6_witness :
    ∃ S1, Insert [["a", "x"], ["c", "z"]] ["b", "y"] = some S1 ∧
      Insert S1 ["b", "y"] = some S1 :=
  claim_C6 (w := 2) (by decide) (by decide) (by decide)

/-- Claim C7: on a sorted duplicate-free rule set of width-`w` rules,
removing a full-width rule and then looking it up with `Find` returns
nothing. -/
theorem claim_C7 {S : Policies} {w : Nat} {r : Rule}
    (hs : SortedLe S) (hnd : S.Nodup) (hw : Widths w S) (hr : r.length = w) :
    ∃ S1, Remove S r = some S1 ∧ Find S1 r = some none := by
  rcases Remove_not_mem hs hnd hw hr with ⟨S1, h1, hsub, hnm⟩
  refine ⟨S1, h1, Find_total_none ?_ ?_⟩
  · intro x hx
    exact le_of_eq (by rw [hr, hw x (hsub.subset hx)])
  · intro x hx he
    have hxw : x.length = w := hw x (hsub.subset hx)
    rw [hr, ← hxw, List.take_length] at he
    exact hnm (he ▸ hx)

/-- Claim C7 (witness): remove-then-find at a concrete set and rule. -/
theorem claim_C7_witness :
    ∃ S1, Remove [["a", "x"], ["b", "y"]] ["b", "y"] = some S1 ∧
      Find S1 ["b", "y"] = some none :=
  claim_C7 (w := 2) (by decide) (by decide) (by decide) (by decide)

/-- Claim C8: the spec's scenario A.  Sorting
`[[c,e],[c,u],[b,o],[a,f],[b,o],[a,d]]` yields
`[[a,d],[a,f],[b,o],[b,o],[c,e],[c,u]]` with the duplicate retained;
`Find([a,e])` returns nothing and `Find([c,e])` returns `[c,e]`;
`Remove([b,o])` removes exactly one occurrence; the three inserts
`[a,f], [a,e], [c,y]` then yield
`[[a,d],[a,e],[a,f],[b,o],[c,e],[c,u],[c,y]]`. -/
theorem claim_C8 :
    sortPolicies [["c", "e"], ["c", "u"], ["b", "o"], ["a", "f"], ["b", "o"], ["a", "d"]] =
        [["a", "d"], ["a", "f"], ["b", "o"], ["b", "o"], ["c", "e"], ["c", "u"]] ∧
      Find [["a", "d"], ["a", "f"], ["b", "o"], ["b", "o"], ["c", "e"], ["c", "u"]]
        ["a", "e"] = some none ∧
      Find [["a", "d"], ["a", "f"], ["b", "o"], ["b", "o"], ["c", "e"], ["c", "u"]]
        ["c", "e"] = some (some ["c", "e"]) ∧
      Remove [["a", "d"], ["a", "f"], ["b", "o"], ["b", "o"], ["c", "e"], ["c", "u"]]
        ["b", "o"] = some [["a", "d"], ["a", "f"], ["b", "o"], ["c", "e"], ["c", "u"]] ∧
      Insert [["a", "d"], ["a", "f"], ["b", "o"], ["c", "e"], ["c", "u"]] ["a", "f"] =
        some [["a", "d"], ["a", "f"], ["b", "o"], ["c", "e"], ["c", "u"]] ∧
      Insert [["a", "d"], ["a", "f"], ["b", "o"], ["c", "e"], ["c", "u"]] ["a", "e"] =
        some [["a", "d"], ["a", "e"], ["a", "f"], ["b", "o"], ["c", "e"], ["c", "u"]] ∧
      Insert [["a", "d"], ["a", "e"], ["a", "f"], ["b", "o"], ["c", "e"], ["c", "u"]]
        ["c", "y"] =
        some [["a", "d"], ["a", "e"], ["a", "f"], ["b", "o"], ["c", "e"], ["c", "u"],
          ["c", "y"]] := by
  refine ⟨?_, ?_, ?_, ?_, ?_, ?_, ?_⟩ <;> rfl

/-- Claim C9: for every cache state and every group list,
`FilterWithGroups(pvi, groups, gvi)` is the concatenation, in group order,
over `g ∈ groups` of `P.Filter` applied to the pattern of length `pvi + 1`
whose positions before `pvi` are wildcards and whose position `pvi` is
`g[gvi]`; for empty `groups` the result is empty. -/
theorem claim_C9 (P G : Policies) (pvi : Nat) (groups : Policies) (gvi : Nat) :
    Manager.FilterWithGroups ⟨P, G⟩ pvi groups gvi = specFilterWithGroups P pvi groups gvi ∧
      Manager.FilterWithGroups ⟨P, G⟩ pvi [] gvi = some [] :=
  ⟨FilterWithGroups_eq_spec ⟨P, G⟩ pvi groups gvi, by simp [Manager.FilterWithGroups]⟩

/-- Claim C10: the guarded embeddings of `Less`, `search` (hence `Insert`,
`Remove`, `Find`) and `Filter` never reach their error branch — no
out-of-range access happens — under the unchecked preconditions that the
compared rules are equal width and every stored rule is at least as long
as the supplied query or pattern. -/
theorem claim_C10 (p : Policies) (a b rule pattern : List String)
    (hab : a.length = b.length)
    (hrule : ∀ x ∈ p, rule.length ≤ x.length)
    (hpat : ∀ x ∈ p, pattern.length ≤ x.length) :
    (∃ t, lessAux a b = some t) ∧
      (∃ i, search p rule = some i ∧ i ≤ p.length) ∧
      (∃ q, Insert p rule = some q) ∧
      (∃ q, Remove p rule = some q) ∧
      (∃ r2, Find p rule = some r2) ∧
      (∃ q, Filter p pattern = some q) := by
  refine ⟨lessAux_total (le_of_eq hab), search_total hrule, Insert_total hrule, ?_,
    Find_total hrule, Filter_total hpat⟩
  rcases Remove_sublist hrule with ⟨q, hq, _⟩
  exact ⟨q, hq⟩

/-- Claim C10 (witness): totality at a concrete store, query and pattern. -/
theorem claim_C10_witness :
    (∃ t, lessAux ["a", "b"] ["a", "c"] = some t) ∧
      (∃ i, search [["a", "b"], ["c", "d"]] ["b"] = some i ∧
        i ≤ ([["a", "b"], ["c", "d"]] : Policies).length) ∧
      (∃ q, Insert [["a", "b"], ["c", "d"]] ["b"] = some q) ∧
      (∃ q, Remove [["a", "b"], ["c", "d"]] ["b"] = some q) ∧
      (∃ r2, Find [["a", "b"], ["c", "d"]] ["b"] = some r2) ∧
      (∃ q, Filter [["a", "b"], ["c", "d"]] ["", "d"] = some q) :=
  claim_C10 [["a", "b"], ["c", "d"]] ["a", "b"] ["a", "c"] ["b"] ["", "d"]
    (by decide) (by decide) (by decide)

end Tulip
